import Mathlib

/-!
Verification development for the `church` repository: a lambda-calculus
kernel with a tokenizer, a shift-reduce parser (`church/lambda_parser.py`),
and a binding-resolved expression type with a canonical de Bruijn bit
encoding, a binder/unbinder and capture-safe substitution
(`church/expr.py`).

Python stacks (`list.append` / `list.pop`) are modelled as Lean lists whose
head is the top of the stack.  Python dictionaries keyed on object identity
are modelled as association lists; object identity of `Parameter`
allocations is modelled by a numeric id threaded through each allocating
operation as a counter, so that "fresh allocation" means "id distinct from
every id allocated so far".  Fallible code returns `Except Err`, with one
constructor per distinct Python exception raised by the source.
-/

/-- Errors of the embedded program.  Each constructor corresponds to one
exception the Python source can raise: `invalidCharacter c` is
`ParseError("Invalid character in string: c")` from the tokenizer,
`parseError` is the argument-less `ParseError()` raised by the parser's
no-transition branches, `failedLookup` is `ValueError("Failed lookup")`
from `lookup`, `keyError` / `indexError` / `assertionError` are Python
`KeyError` / `IndexError` / `AssertionError`, `typeMismatch` stands for
the `TypeError`/`AttributeError` of using a value at the wrong type, and
`stopIteration` is `StopIteration` from an exhausted token generator. -/
inductive Err where
  | invalidCharacter (c : Char)
  | parseError
  | failedLookup
  | keyError
  | indexError
  | assertionError
  | typeMismatch
  | stopIteration
deriving DecidableEq, Repr

/-- Association-list lookup, the model of Python `dict.__getitem__` /
`in` tests on dictionaries (first entry with the given key wins; the
dictionaries of the source never hold duplicate keys). -/
def assocGet {α β : Type} [DecidableEq α] : List (α × β) → α → Option β
  | [], _ => none
  | (k, v) :: rest, a => if k = a then some v else assocGet rest a

/-- Association-list key removal, the model of Python `dict.pop(key)`
(the looked-up value is taken separately with `assocGet`). -/
def assocErase {α β : Type} [DecidableEq α] : List (α × β) → α → List (α × β)
  | [], _ => []
  | (k, v) :: rest, a => if k = a then rest else (k, v) :: assocErase rest a

/-- Index of the first occurrence of an element in a list. -/
def idxOf? {α : Type} [DecidableEq α] (a : α) : List α → Option Nat
  | [] => none
  | b :: rest => if b = a then some 0 else (idxOf? a rest).map (· + 1)

/-- Run a step function over a list of inputs, threading the state and
stopping at the first error: the model of the Python `for` loops that walk
a flattened token stream. -/
def runSteps {σ α : Type} (step : σ → α → Except Err σ) : σ → List α → Except Err σ
  | s, [] => .ok s
  | s, a :: rest =>
    match step s a with
    | .ok s' => runSteps step s' rest
    | .error e => .error e

/-- `class Parameter`: an identity-only binding token.  The Python object
identity is modelled by `id`; `name` is the informational display name
(`Parameter.name`). -/
structure Parameter where
  id : Nat
  name : String
deriving DecidableEq, Repr

/-- The binding-resolved expression tree: `ApplyExpr`, `FunctionExpr` and
`ParameterReference` from `church/expr.py`. -/
inductive Expr where
  | apply (function argument : Expr)
  | function (parameter : Parameter) (body : Expr)
  | ref (parameter : Parameter)
deriving DecidableEq, Repr

/-- The traversal events produced by `Expr.flatten`: the pairs
`("APPLY", None)`, `("CLOSE_APPLY", None)`, `("FUNCTION", p)`,
`("CLOSE_FUNCTION", p)` and `("NAME", p)`. -/
inductive Piece where
  | openApply
  | closeApply
  | openFunction (p : Parameter)
  | closeFunction (p : Parameter)
  | name (p : Parameter)
deriving DecidableEq, Repr

/-- The event sequence of `Expr.flatten`: pre-order with explicit close
markers, the function subtree of an application before its argument.
The source drives this with an explicit work stack; `Expr.flattenIter`
below is that work-stack loop, and `flattenIter_eq_flatten` proves the
two agree. -/
def Expr.flatten : Expr → List Piece
  | .apply f a => .openApply :: (f.flatten ++ a.flatten ++ [.closeApply])
  | .function p b => .openFunction p :: (b.flatten ++ [.closeFunction p])
  | .ref p => [.name p]

/-- Work-stack actions of the source's `flatten`: `("PROCESS", expr)` and
`("YIELD", piece)`. -/
inductive FlatAction where
  | process (e : Expr)
  | yield (pc : Piece)

/-- `_pieces` of each node class. -/
def Expr.pieces : Expr → List FlatAction
  | .apply f a =>
    [.yield .openApply, .process f, .process a, .yield .closeApply]
  | .function p b =>
    [.yield (.openFunction p), .process b, .yield (.closeFunction p)]
  | .ref p => [.yield (.name p)]

/-- Size measure used to show the flatten work loop terminates. -/
def Expr.size : Expr → Nat
  | .apply f a => 1 + f.size + a.size
  | .function _ b => 1 + b.size
  | .ref _ => 1

/-- Weight of a work list, decreasing along the flatten loop. -/
def flatWeight : List FlatAction → Nat
  | [] => 0
  | .process e :: rest => 3 * e.size + flatWeight rest
  | .yield _ :: rest => 1 + flatWeight rest

theorem flatWeight_append (l₁ l₂ : List FlatAction) :
    flatWeight (l₁ ++ l₂) = flatWeight l₁ + flatWeight l₂ := by
  induction l₁ with
  | nil => simp [flatWeight]
  | cons a rest ih => cases a <;> simp [flatWeight, ih] <;> omega

theorem flatWeight_pieces (e : Expr) : flatWeight e.pieces < 3 * e.size := by
  cases e <;> simp [Expr.pieces, Expr.size, flatWeight] <;> omega

/-- The work-stack loop of the source's `Expr.flatten`: Python pops from
the end of `to_do` and extends with `reversed(arg._pieces())`, which is the
same as taking the head of this list and prepending `pieces` in order. -/
def flattenLoop (todo : List FlatAction) : List Piece :=
  match todo with
  | [] => []
  | .yield pc :: rest => pc :: flattenLoop rest
  | .process e :: rest => flattenLoop (e.pieces ++ rest)
termination_by flatWeight todo
decreasing_by
  · simp only [flatWeight]
    omega
  · have h1 := flatWeight_append e.pieces rest
    have h2 := flatWeight_pieces e
    simp only [flatWeight]
    omega

/-- The iterative flatten, exactly as in the source: start the work stack
with `("PROCESS", self)`. -/
def Expr.flattenIter (e : Expr) : List Piece :=
  flattenLoop [.process e]

theorem flattenLoop_yield (pc : Piece) (rest : List FlatAction) :
    flattenLoop (.yield pc :: rest) = pc :: flattenLoop rest := by
  simp only [flattenLoop]

theorem flattenLoop_proc (e : Expr) (rest : List FlatAction) :
    flattenLoop (.process e :: rest) = flattenLoop (e.pieces ++ rest) := by
  conv_lhs => rw [flattenLoop]

theorem flattenLoop_process (e : Expr) :
    ∀ rest, flattenLoop (.process e :: rest) = e.flatten ++ flattenLoop rest := by
  induction e with
  | apply f a ihf iha =>
    intro rest
    rw [flattenLoop_proc]
    simp only [Expr.pieces, List.cons_append, List.nil_append]
    rw [flattenLoop_yield, ihf, iha, flattenLoop_yield]
    simp [Expr.flatten]
  | function p b ihb =>
    intro rest
    rw [flattenLoop_proc]
    simp only [Expr.pieces, List.cons_append, List.nil_append]
    rw [flattenLoop_yield, ihb, flattenLoop_yield]
    simp [Expr.flatten]
  | ref p =>
    intro rest
    rw [flattenLoop_proc]
    simp only [Expr.pieces, List.cons_append, List.nil_append]
    rw [flattenLoop_yield]
    simp [Expr.flatten]

/-- The iterative work-stack traversal of the source equals the recursive
event sequence used throughout this development. -/
theorem flattenIter_eq_flatten (e : Expr) : e.flattenIter = e.flatten := by
  rw [Expr.flattenIter, flattenLoop_process]
  simp [flattenLoop]

/-- State of the `bitstring` walk: the `bindings` dictionary mapping each
currently-open `Parameter` to the number of binders open at the moment it
was opened, and the accumulated bits. -/
abbrev BsState := List (Parameter × Nat) × List Char

/-- One step of `Expr.bitstring`'s event loop.  `"APPLY"` emits `01`;
`"FUNCTION"` asserts the parameter is not already open, emits `00` and
records the parameter at the current depth; `"CLOSE_FUNCTION"` pops the
parameter's record and asserts the LIFO depth invariant; `"NAME"` emits
`1`, then `index` ones, then `0`, where `index` is the de Bruijn index.
`"CLOSE_APPLY"` matches no branch of the source's `if`/`elif` chain and
contributes nothing.  (Python `"1" * index` of a negative index is the
empty string; `Nat` subtraction matches that truncation.) -/
def bsStep (st : BsState) : Piece → Except Err BsState
  | .openApply => .ok (st.1, st.2 ++ ['0', '1'])
  | .openFunction p =>
    if (assocGet st.1 p).isSome then .error .assertionError
    else .ok (st.1 ++ [(p, st.1.length)], st.2 ++ ['0', '0'])
  | .closeFunction p =>
    match assocGet st.1 p with
    | none => .error .keyError
    | some level =>
      let m := assocErase st.1 p
      if level = m.length then .ok (m, st.2) else .error .assertionError
  | .name p =>
    match assocGet st.1 p with
    | none => .error .keyError
    | some level =>
      .ok (st.1, st.2 ++ ('1' :: (List.replicate (st.1.length - 1 - level) '1' ++ ['0'])))
  | .closeApply => .ok st

/-- `Expr.bitstring`: the canonical de Bruijn bit encoding of an `Expr`. -/
def Expr.bitstring (e : Expr) : Except Err String :=
  (runSteps bsStep ([], []) e.flatten).map (fun st => String.mk st.2)

/-- Variant tag at the root, the model of `type(self)` in
`Expr.__eq__`. -/
def Expr.tag : Expr → Nat
  | .apply _ _ => 0
  | .function _ _ => 1
  | .ref _ => 2

/-- `Expr.__eq__`: same variant tag at the root and identical encoded bit
sequence. -/
def Expr.eqv (e₁ e₂ : Expr) : Prop :=
  e₁.tag = e₂.tag ∧ e₁.bitstring = e₂.bitstring

instance {α β : Type} [DecidableEq α] [DecidableEq β] : DecidableEq (Except α β) := fun x y =>
  match x, y with
  | .ok a, .ok b =>
    if h : a = b then isTrue (by rw [h]) else
      isFalse (fun hc => h (by cases hc; rfl))
  | .ok _, .error _ => isFalse (fun hc => by cases hc)
  | .error _, .ok _ => isFalse (fun hc => by cases hc)
  | .error a, .error b =>
    if h : a = b then isTrue (by rw [h]) else
      isFalse (fun hc => h (by cases hc; rfl))

instance (e₁ e₂ : Expr) : Decidable (e₁.eqv e₂) := by
  unfold Expr.eqv
  infer_instance

/-- The raw (name-based) syntax tree.  Its three constructors `Name`,
`Apply` and `Function` are the classes defined in
`church/lambda_parser.py` (name text, function/argument, bound name and
body). -/
inductive Ast where
  | name (s : String)
  | apply (function argument : Ast)
  | function (name : String) (body : Ast)
deriving DecidableEq, Repr

/-- The typed traversal events `(AstToken, payload)` consumed by `bind`:
NAME and OPEN_FUNCTION carry the name text; `bind` ignores the payloads of
the other events. -/
inductive AstPiece where
  | name (s : String)
  | openFunction (s : String)
  | closeFunction (s : String)
  | openApply
  | closeApply
deriving DecidableEq, Repr

/-- Modelled from the spec: the traversal method of the raw syntax tree
(`church/ast.py`, which only its consumers appear in `src/`) produces,
per section 4.3's event protocol, a pre-order event stream with explicit
close markers: a name leaf emits NAME, an apply node emits OPEN_APPLY,
the function subtree's events, the argument subtree's events, then
CLOSE_APPLY, and a function node emits OPEN_FUNCTION, the body's events,
then CLOSE_FUNCTION. -/
def Ast.flatten : Ast → List AstPiece
  | .name s => [.name s]
  | .apply f a => .openApply :: (f.flatten ++ a.flatten ++ [.closeApply])
  | .function s b => .openFunction s :: (b.flatten ++ [.closeFunction s])

/-- `lookup(bindings, name)`: scan the in-scope `(name, parameter)` pairs
from most-recently-pushed (the end of the Python list, i.e. the head of
the reversed list) to least-recently-pushed and return the first
parameter whose recorded name matches; no match raises
`ValueError("Failed lookup")`. -/
def lookup (bindings : List (String × Parameter)) (name : String) : Except Err Parameter :=
  match assocGet bindings.reverse name with
  | some p => .ok p
  | none => .error .failedLookup

/-- State of `bind`: the expression stack, the in-scope
`(name, Parameter)` pairs (pushed at the end, like the Python list), and
the next fresh `Parameter` id (modelling `Parameter(arg)` allocating a
brand-new object). -/
structure BindState where
  exprStack : List Expr
  bindings : List (String × Parameter)
  next : Nat

/-- One step of `bind`'s event loop over the raw tree's traversal. -/
def bindStep (st : BindState) : AstPiece → Except Err BindState
  | .name s =>
    match lookup st.bindings s with
    | .ok p => .ok ⟨Expr.ref p :: st.exprStack, st.bindings, st.next⟩
    | .error e => .error e
  | .openFunction s =>
    .ok ⟨st.exprStack, st.bindings ++ [(s, ⟨st.next, s⟩)], st.next + 1⟩
  | .closeFunction _ =>
    match st.bindings.getLast?, st.exprStack with
    | some (_, p), b :: rest =>
      .ok ⟨Expr.function p b :: rest, st.bindings.dropLast, st.next⟩
    | _, _ => .error .indexError
  | .openApply => .ok st
  | .closeApply =>
    match st.exprStack with
    | a :: f :: rest => .ok ⟨Expr.apply f a :: rest, st.bindings, st.next⟩
    | _ => .error .indexError

/-- `bind(ast)`: match names to function parameters, producing an `Expr`.
After the walk the expression stack must hold exactly the result. -/
def bind (a : Ast) : Except Err Expr :=
  match runSteps bindStep ⟨[], [], 0⟩ a.flatten with
  | .ok st =>
    match st.exprStack with
    | [e] => .ok e
    | _ => .error .indexError
  | .error e => .error e

/-- `DIGITS`, as a list of characters. -/
def DIGITS : List Char := ['0', '1', '2', '3', '4', '5', '6', '7', '8', '9']

/-- All digit suffixes of a given length, in the order
`itertools.product(DIGITS, repeat=k)` enumerates them (first character
most significant). -/
def suffixes : Nat → List String
  | 0 => [String.mk []]
  | k + 1 => (suffixes k).flatMap (fun s => DIGITS.map (fun d => s.push d))

/-- The first `n` levels of `variants(base_name)`: the base name followed
by the base name with digit suffixes of length 1, 2, ..., `n - 1`, each
level in product order. -/
def variantsUpTo (base : String) : Nat → List String
  | 0 => []
  | n + 1 => variantsUpTo base n ++ (suffixes n).map (fun suf => base ++ suf)

/-- Boolean membership test on string lists (Python `in` on the scope
set). -/
def strMem (s : String) (l : List String) : Bool :=
  l.any (fun t => decide (t = s))

/-- `name_avoiding(names_to_avoid, base_name)`: the first variant of the
base name not in the avoid set.  The source scans the infinite `variants`
generator; since the avoid set is finite and the variant stream never
repeats, the first hit always lies among the variants with suffix length
at most `names_to_avoid.length` (a pigeonhole fact proved below as
`name_avoiding_fresh`), so scanning that finite prefix is equivalent.
The `none` fallback is unreachable. -/
def name_avoiding (avoid : List String) (base : String) : String :=
  match (variantsUpTo base (avoid.length + 1)).find? (fun v => !strMem v avoid) with
  | some v => v
  | none => base

/-- An entry of `unbind`'s result stack: either a built raw-tree node or
a chosen binder name pushed at OPEN_FUNCTION. -/
inductive UnbindItem where
  | node (a : Ast)
  | name (s : String)
deriving DecidableEq, Repr

/-- State of `unbind`: the result stack, the `Parameter` to chosen-name
replacements dictionary (inserted at the end), and the names currently in
scope (a Python set, modelled as a list with cons for `add` and first
removal for `remove`; the asserts of the source keep it duplicate
free). -/
structure UnbindState where
  resultStack : List UnbindItem
  replacements : List (Parameter × String)
  namesInScope : List String

/-- Set removal on the scope list (Python `set.remove`). -/
def removeStr : List String → String → List String
  | [], _ => []
  | t :: rest, s => if t = s then rest else t :: removeStr rest s

/-- One step of `unbind`'s event loop, mirroring the source's handling of
CLOSE_APPLY, FUNCTION (choose a fresh name, assert freshness and the
parameter being new, push the name), CLOSE_FUNCTION (build the Function
node, drop the replacement and the scope name) and NAME events. -/
def unbindStep (st : UnbindState) : Piece → Except Err UnbindState
  | .closeApply =>
    match st.resultStack with
    | .node a :: .node f :: rest =>
      .ok ⟨.node (Ast.apply f a) :: rest, st.replacements, st.namesInScope⟩
    | _ => .error .indexError
  | .openFunction p =>
    let nm := name_avoiding st.namesInScope p.name
    if strMem nm st.namesInScope then .error .assertionError
    else if (assocGet st.replacements p).isSome then .error .assertionError
    else .ok ⟨.name nm :: st.resultStack, st.replacements ++ [(p, nm)],
      nm :: st.namesInScope⟩
  | .closeFunction p =>
    match st.resultStack with
    | .node b :: .name nm :: rest =>
      match assocGet st.replacements p with
      | some _ =>
        .ok ⟨.node (Ast.function nm b) :: rest, assocErase st.replacements p,
          removeStr st.namesInScope nm⟩
      | none => .error .keyError
    | _ => .error .indexError
  | .name p =>
    match assocGet st.replacements p with
    | some nm => .ok ⟨.node (Ast.name nm) :: st.resultStack, st.replacements,
        st.namesInScope⟩
    | none => .error .keyError
  | .openApply => .ok st

/-- `unbind(expr)`: turn an `Expr` back into a raw tree, renaming binders
to avoid clashes.  The final asserts of the source require the result
stack to hold exactly one finished node and the replacement map and scope
set to be empty. -/
def unbind (e : Expr) : Except Err Ast :=
  match runSteps unbindStep ⟨[], [], []⟩ e.flatten with
  | .ok ⟨[.node a], [], []⟩ => .ok a
  | .ok _ => .error .assertionError
  | .error er => .error er

/-- State of `FunctionExpr.__call__`: the result stack, the `Parameter`
to replacement-`Expr` dictionary, and the next fresh id for the
`Parameter(arg.name)` allocations. -/
structure CallState where
  resultStack : List Expr
  replacements : List (Parameter × Expr)
  next : Nat

/-- One step of `FunctionExpr.__call__`'s walk over the body's events:
CLOSE_APPLY builds an `ApplyExpr` from the two topmost results; FUNCTION
allocates a brand-new `Parameter` with the same display name and maps the
old parameter to a reference to it (asserting the old parameter was not
already mapped); CLOSE_FUNCTION pops that mapping, requires its value to
be a `ParameterReference` (the source reads `.parameter` off it), and
builds a `FunctionExpr`; NAME pushes the mapped replacement
(`KeyError` if the parameter is not in the mapping). -/
def callStep (st : CallState) : Piece → Except Err CallState
  | .closeApply =>
    match st.resultStack with
    | a :: f :: rest => .ok ⟨Expr.apply f a :: rest, st.replacements, st.next⟩
    | _ => .error .indexError
  | .openFunction p =>
    if (assocGet st.replacements p).isSome then .error .assertionError
    else .ok ⟨st.resultStack,
      st.replacements ++ [(p, Expr.ref ⟨st.next, p.name⟩)], st.next + 1⟩
  | .closeFunction p =>
    match assocGet st.replacements p with
    | some (Expr.ref q) =>
      match st.resultStack with
      | b :: rest =>
        .ok ⟨Expr.function q b :: rest, assocErase st.replacements p, st.next⟩
      | _ => .error .indexError
    | some _ => .error .typeMismatch
    | none => .error .keyError
  | .name p =>
    match assocGet st.replacements p with
    | some rep => .ok ⟨rep :: st.resultStack, st.replacements, st.next⟩
    | none => .error .keyError
  | .openApply => .ok st

/-- `FunctionExpr.__call__(argument)`: walk the body's events with the
replacement map seeded with the function's own parameter mapped to the
argument; the result stack must end holding exactly the result.  Only a
`FunctionExpr` is callable.  `fresh` seeds the ids of the brand-new
`Parameter` allocations (object identity model). -/
def Expr.call (f argument : Expr) (fresh : Nat) : Except Err Expr :=
  match f with
  | .function p body =>
    match runSteps callStep ⟨[], [(p, argument)], fresh⟩ body.flatten with
    | .ok ⟨[e], _, _⟩ => .ok e
    | .ok _ => .error .assertionError
    | .error er => .error er
  | _ => .error .typeMismatch

/-- Token types of `church/lambda_parser.py`: the terminals ID, LEFT,
RIGHT, SLASH, DOT, END and the nonterminal markers ATOM, EXPR, NAMES,
COMPLETE pushed back into the token stream by reductions. -/
inductive TType where
  | id
  | left
  | right
  | slash
  | dot
  | tend
  | atom
  | texpr
  | names
  | complete
deriving DecidableEq, Repr

/-- Token and value-stack payloads: `None`, an identifier string, a names
list, or a built raw-tree node. -/
inductive Value where
  | vnone
  | str (s : String)
  | names (ns : List String)
  | node (a : Ast)
deriving DecidableEq, Repr

/-- A token: `(token_type, token_value)`. -/
abbrev Token := TType × Value

/-- `c in IDENTIFIER_CHARACTERS`: ASCII lowercase letters and
underscore. -/
def isIdentChar (c : Char) : Bool :=
  (decide ('a' ≤ c) && decide (c ≤ 'z')) || decide (c = '_')

/-- `c in WHITESPACE`: space and newline. -/
def isWhite (c : Char) : Bool :=
  decide (c = ' ') || decide (c = '\n')

/-- `SINGLE_TOKEN_CHARS`. -/
def singleTokenChar (c : Char) : Option TType :=
  if c = '(' then some .left
  else if c = ')' then some .right
  else if c = '\\' then some .slash
  else if c = '.' then some .dot
  else none

/-- The two-state tokenizer loop of `tokenize`: `idAcc` holds the
identifier characters accumulated so far (nonempty exactly when
`parsing_id` is true).  The result is the list of tokens the generator
yields before finishing, paired with `some c` when it would raise
`ParseError("Invalid character in string: c")` at `c` instead of
finishing (the tokens before the bad character are still yielded, which
matches the generator's lazy behaviour). -/
def tokenizeAux : List Char → List Char → List Token × Option Char
  | [], idAcc =>
    let pre : List Token :=
      if idAcc.isEmpty then [] else [(TType.id, Value.str (String.mk idAcc))]
    (pre ++ [(TType.tend, Value.vnone)], none)
  | c :: rest, idAcc =>
    if isIdentChar c then tokenizeAux rest (idAcc ++ [c])
    else
      let pre : List Token :=
        if idAcc.isEmpty then [] else [(TType.id, Value.str (String.mk idAcc))]
      match singleTokenChar c with
      | some tt =>
        let (ts, bad) := tokenizeAux rest []
        (pre ++ (tt, Value.vnone) :: ts, bad)
      | none =>
        if isWhite c then
          let (ts, bad) := tokenizeAux rest []
          (pre ++ ts, bad)
        else (pre, some c)

/-- `tokenize(s)`. -/
def tokenize (s : String) : List Token × Option Char :=
  tokenizeAux s.data []

/-- The token stream with push-back: `pending` is the push-back buffer
followed by the not-yet-consumed generator output, and `bad` records the
character at which the generator will raise a lexical error once
`pending` is exhausted.  (Tokenization does not depend on the parser, so
pre-computing the whole token list is equivalent to the lazy
generator.) -/
structure TStream where
  pending : List Token
  bad : Option Char

/-- `TokenStream.next`: pop the front, or surface the tokenizer's
lexical error, or `StopIteration` past the end. -/
def TStream.next (ts : TStream) : Except Err (Token × TStream) :=
  match ts.pending with
  | t :: rest => .ok (t, ⟨rest, ts.bad⟩)
  | [] =>
    match ts.bad with
    | some c => .error (.invalidCharacter c)
    | none => .error .stopIteration

/-- `TokenStream.push`. -/
def TStream.push (ts : TStream) (t : Token) : TStream :=
  ⟨t :: ts.pending, ts.bad⟩

/-- `TokenStream.peek_type`: look at the next token's type without
consuming it (errors propagate exactly as in `peek`). -/
def TStream.peekType (ts : TStream) : Except Err TType :=
  match ts.next with
  | .ok (t, _) => .ok t.1
  | .error e => .error e

/-- The parser automaton's states: the shift states, the reduce states
and the accept state, as enumerated in the source. -/
inductive PState where
  | sbegin
  | sdot
  | sleft
  | sexpr
  | sbeginComplete
  | sleftComplete
  | sslash
  | sslashNames
  | exprAtom
  | sleftExprRight
  | satom
  | sid
  | snames
  | rlambda
  | snamesId
  | rcomplete
  | sbeginCompleteEnd
deriving DecidableEq, Repr

/-- A configuration of `SMParser.parse`'s loop: current state, state
stack, value stack (head = top), and the token stream. -/
structure PConfig where
  state : PState
  stateStack : List PState
  valueStack : List Value
  tokens : TStream

/-- The reduction loop of the RLAMBDA rule:
`while names: atom = Function(names.pop(), atom)` pops names from the end
of the list, so it consumes the reversed list front to back. -/
def wrapRev : List String → Ast → Ast
  | [], atom => atom
  | n :: rest, atom => wrapRev rest (Ast.function n atom)

/-- `atom -> SLASH names DOT expr` reduction body: wrap the atom in
`Function` nodes, rightmost name innermost. -/
def wrapLambda (names : List String) (atom : Ast) : Ast :=
  wrapRev names.reverse atom

/-- One iteration of `SMParser.parse`'s `while True` loop: either a new
configuration, or the accepted result value (`value_stack[-2]` at the
accept state), or an error.  Shift states read a token and shift it
(pushing the current state and the token's value) or raise the bare
`ParseError()`; reduce states pop the frames of one grammar rule and push
the built nonterminal back into the token stream. -/
def pstep (cfg : PConfig) : Except Err (PConfig ⊕ Value) :=
  match cfg.state with
  | .sbegin =>
    match cfg.tokens.next with
    | .error e => .error e
    | .ok ((tt, tv), ts') =>
      match tt with
      | .id => .ok (.inl ⟨.sid, cfg.state :: cfg.stateStack, tv :: cfg.valueStack, ts'⟩)
      | .left => .ok (.inl ⟨.sleft, cfg.state :: cfg.stateStack, tv :: cfg.valueStack, ts'⟩)
      | .slash => .ok (.inl ⟨.sslash, cfg.state :: cfg.stateStack, tv :: cfg.valueStack, ts'⟩)
      | .atom => .ok (.inl ⟨.satom, cfg.state :: cfg.stateStack, tv :: cfg.valueStack, ts'⟩)
      | .texpr =>
        match ts'.peekType with
        | .error e => .error e
        | .ok pt =>
          if pt = .tend ∨ pt = .right then
            .ok (.inl ⟨.rcomplete, cfg.state :: cfg.stateStack, tv :: cfg.valueStack, ts'⟩)
          else
            .ok (.inl ⟨.sexpr, cfg.state :: cfg.stateStack, tv :: cfg.valueStack, ts'⟩)
      | .complete =>
        .ok (.inl ⟨.sbeginComplete, cfg.state :: cfg.stateStack, tv :: cfg.valueStack, ts'⟩)
      | _ => .error .parseError
  | .sleft =>
    match cfg.tokens.next with
    | .error e => .error e
    | .ok ((tt, tv), ts') =>
      match tt with
      | .id => .ok (.inl ⟨.sid, cfg.state :: cfg.stateStack, tv :: cfg.valueStack, ts'⟩)
      | .left => .ok (.inl ⟨.sleft, cfg.state :: cfg.stateStack, tv :: cfg.valueStack, ts'⟩)
      | .slash => .ok (.inl ⟨.sslash, cfg.state :: cfg.stateStack, tv :: cfg.valueStack, ts'⟩)
      | .atom => .ok (.inl ⟨.satom, cfg.state :: cfg.stateStack, tv :: cfg.valueStack, ts'⟩)
      | .texpr =>
        match ts'.peekType with
        | .error e => .error e
        | .ok pt =>
          if pt = .tend ∨ pt = .right then
            .ok (.inl ⟨.rcomplete, cfg.state :: cfg.stateStack, tv :: cfg.valueStack, ts'⟩)
          else
            .ok (.inl ⟨.sexpr, cfg.state :: cfg.stateStack, tv :: cfg.valueStack, ts'⟩)
      | .complete =>
        .ok (.inl ⟨.sleftComplete, cfg.state :: cfg.stateStack, tv :: cfg.valueStack, ts'⟩)
      | _ => .error .parseError
  | .sdot =>
    match cfg.tokens.next with
    | .error e => .error e
    | .ok ((tt, tv), ts') =>
      match tt with
      | .id => .ok (.inl ⟨.sid, cfg.state :: cfg.stateStack, tv :: cfg.valueStack, ts'⟩)
      | .left => .ok (.inl ⟨.sleft, cfg.state :: cfg.stateStack, tv :: cfg.valueStack, ts'⟩)
      | .slash => .ok (.inl ⟨.sslash, cfg.state :: cfg.stateStack, tv :: cfg.valueStack, ts'⟩)
      | .atom => .ok (.inl ⟨.satom, cfg.state :: cfg.stateStack, tv :: cfg.valueStack, ts'⟩)
      | .texpr =>
        match ts'.peekType with
        | .error e => .error e
        | .ok pt =>
          if pt = .tend ∨ pt = .right then
            .ok (.inl ⟨.rcomplete, cfg.state :: cfg.stateStack, tv :: cfg.valueStack, ts'⟩)
          else
            .ok (.inl ⟨.sexpr, cfg.state :: cfg.stateStack, tv :: cfg.valueStack, ts'⟩)
      | .complete =>
        .ok (.inl ⟨.rlambda, cfg.state :: cfg.stateStack, tv :: cfg.valueStack, ts'⟩)
      | _ => .error .parseError
  | .sexpr =>
    match cfg.tokens.next with
    | .error e => .error e
    | .ok ((tt, tv), ts') =>
      match tt with
      | .id => .ok (.inl ⟨.sid, cfg.state :: cfg.stateStack, tv :: cfg.valueStack, ts'⟩)
      | .left => .ok (.inl ⟨.sleft, cfg.state :: cfg.stateStack, tv :: cfg.valueStack, ts'⟩)
      | .slash => .ok (.inl ⟨.sslash, cfg.state :: cfg.stateStack, tv :: cfg.valueStack, ts'⟩)
      | .atom => .ok (.inl ⟨.exprAtom, cfg.state :: cfg.stateStack, tv :: cfg.valueStack, ts'⟩)
      | _ => .error .parseError
  | .sbeginComplete =>
    match cfg.tokens.next with
    | .error e => .error e
    | .ok ((tt, tv), ts') =>
      match tt with
      | .tend =>
        .ok (.inl ⟨.sbeginCompleteEnd, cfg.state :: cfg.stateStack, tv :: cfg.valueStack, ts'⟩)
      | _ => .error .parseError
  | .sleftComplete =>
    match cfg.tokens.next with
    | .error e => .error e
    | .ok ((tt, tv), ts') =>
      match tt with
      | .right =>
        .ok (.inl ⟨.sleftExprRight, cfg.state :: cfg.stateStack, tv :: cfg.valueStack, ts'⟩)
      | _ => .error .parseError
  | .sslash =>
    match cfg.tokens.next with
    | .error e => .error e
    | .ok ((tt, tv), ts') =>
      match tt with
      | .id => .ok (.inl ⟨.snames, cfg.state :: cfg.stateStack, tv :: cfg.valueStack, ts'⟩)
      | .names =>
        .ok (.inl ⟨.sslashNames, cfg.state :: cfg.stateStack, tv :: cfg.valueStack, ts'⟩)
      | _ => .error .parseError
  | .sslashNames =>
    match cfg.tokens.next with
    | .error e => .error e
    | .ok ((tt, tv), ts') =>
      match tt with
      | .id => .ok (.inl ⟨.snamesId, cfg.state :: cfg.stateStack, tv :: cfg.valueStack, ts'⟩)
      | .dot => .ok (.inl ⟨.sdot, cfg.state :: cfg.stateStack, tv :: cfg.valueStack, ts'⟩)
      | _ => .error .parseError
  | .rcomplete =>
    match cfg.stateStack, cfg.valueStack with
    | s :: ss, v :: vs =>
      .ok (.inl ⟨s, ss, vs, cfg.tokens.push (.complete, v)⟩)
    | _, _ => .error .indexError
  | .snamesId =>
    match cfg.stateStack, cfg.valueStack with
    | _ :: s :: ss, nameV :: namesV :: vs =>
      match namesV, nameV with
      | Value.names ns, Value.str n =>
        .ok (.inl ⟨s, ss, vs, cfg.tokens.push (.names, Value.names (ns ++ [n]))⟩)
      | _, _ => .error .typeMismatch
    | _, _ => .error .indexError
  | .rlambda =>
    match cfg.stateStack, cfg.valueStack with
    | _ :: _ :: _ :: s :: ss, atomV :: _ :: namesV :: _ :: vs =>
      match namesV, atomV with
      | Value.names ns, Value.node atom =>
        .ok (.inl ⟨s, ss, vs, cfg.tokens.push (.atom, Value.node (wrapLambda ns atom))⟩)
      | _, _ => .error .typeMismatch
    | _, _ => .error .indexError
  | .snames =>
    match cfg.stateStack, cfg.valueStack with
    | s :: ss, v :: vs =>
      match v with
      | Value.str n => .ok (.inl ⟨s, ss, vs, cfg.tokens.push (.names, Value.names [n])⟩)
      | _ => .error .typeMismatch
    | _, _ => .error .indexError
  | .sid =>
    match cfg.stateStack, cfg.valueStack with
    | s :: ss, v :: vs =>
      match v with
      | Value.str n => .ok (.inl ⟨s, ss, vs, cfg.tokens.push (.atom, Value.node (Ast.name n))⟩)
      | _ => .error .typeMismatch
    | _, _ => .error .indexError
  | .satom =>
    match cfg.stateStack, cfg.valueStack with
    | s :: ss, v :: vs =>
      .ok (.inl ⟨s, ss, vs, cfg.tokens.push (.texpr, v)⟩)
    | _, _ => .error .indexError
  | .exprAtom =>
    match cfg.stateStack, cfg.valueStack with
    | _ :: s :: ss, atomV :: exprV :: vs =>
      match exprV, atomV with
      | Value.node f, Value.node a =>
        .ok (.inl ⟨s, ss, vs, cfg.tokens.push (.texpr, Value.node (Ast.apply f a))⟩)
      | _, _ => .error .typeMismatch
    | _, _ => .error .indexError
  | .sleftExprRight =>
    match cfg.stateStack, cfg.valueStack with
    | _ :: _ :: s :: ss, _ :: exprV :: _ :: vs =>
      .ok (.inl ⟨s, ss, vs, cfg.tokens.push (.atom, exprV)⟩)
    | _, _ => .error .indexError
  | .sbeginCompleteEnd =>
    match cfg.valueStack with
    | _ :: v :: _ => .ok (.inr v)
    | _ => .error .indexError

/-- Run the parser loop for at most `fuel` iterations; `none` means the
fuel ran out (the Python loop always terminates, so every claim about a
concrete input exhibits a sufficient fuel). -/
def prun : Nat → PConfig → Option (Except Err Value)
  | 0, _ => none
  | fuel + 1, cfg =>
    match pstep cfg with
    | .error e => some (.error e)
    | .ok (.inr v) => some (.ok v)
    | .ok (.inl cfg') => prun fuel cfg'

/-- `SMParser().parse(tokenize(s))` with explicit fuel. -/
def parseWithFuel (fuel : Nat) (s : String) : Option (Except Err Ast) :=
  let (ts, bad) := tokenize s
  match prun fuel ⟨.sbegin, [], [], ⟨ts, bad⟩⟩ with
  | none => none
  | some (.error e) => some (.error e)
  | some (.ok (Value.node a)) => some (.ok a)
  | some (.ok _) => some (.error .typeMismatch)

/-- `parse(s)`, with fuel generous enough for every input exercised in
this development. -/
def parse (s : String) : Option (Except Err Ast) :=
  parseWithFuel (20 * (s.length + 2)) s

/-- `bind(parse(s))`: the pipeline used by the spec's testable
properties. -/
def bindParse (s : String) : Option (Except Err Expr) :=
  match parse s with
  | some (.ok a) => some (bind a)
  | some (.error e) => some (.error e)
  | none => none

/-- Canonical bits of `bind(parse(s))`. -/
def canonicalBits (s : String) : Option (Except Err String) :=
  match bindParse s with
  | some (.ok e) => some e.bitstring
  | some (.error er) => some (.error er)
  | none => none

/-- De Bruijn terms: the renaming-independent skeleton of both tree
types (variables count enclosing binders, innermost = 0). -/
inductive DB where
  | var (n : Nat)
  | app (f a : DB)
  | lam (b : DB)
deriving DecidableEq, Repr

/-- The canonical bit encoding, stated directly on de Bruijn terms:
`01` for application, `00` for abstraction, `1 1^n 0` for variable
`n`. -/
def DB.bits : DB → List Char
  | .app f a => '0' :: '1' :: (f.bits ++ a.bits)
  | .lam b => '0' :: '0' :: b.bits
  | .var n => '1' :: (List.replicate n '1' ++ ['0'])

/-- Root constructor tag of a de Bruijn term, aligned with
`Expr.tag`. -/
def DB.tag : DB → Nat
  | .app _ _ => 0
  | .lam _ => 1
  | .var _ => 2

/-- De Bruijn reading of an `Expr` against an environment of enclosing
binders, innermost first; `none` when some reference does not point at an
enclosing binder. -/
def Expr.toDB : Expr → List Parameter → Option DB
  | .ref p, env => (idxOf? p env).map DB.var
  | .apply f a, env =>
    match f.toDB env, a.toDB env with
    | some df, some da => some (.app df da)
    | _, _ => none
  | .function p b, env => (b.toDB (p :: env)).map DB.lam

/-- De Bruijn reading of a raw tree against an environment of enclosing
binder names, innermost first: a name resolves to its nearest enclosing
binder, exactly the shadowing rule of `bind`. -/
def Ast.toDB : Ast → List String → Option DB
  | .name s, env => (idxOf? s env).map DB.var
  | .apply f a, env =>
    match f.toDB env, a.toDB env with
    | some df, some da => some (.app df da)
    | _, _ => none
  | .function s b, env => (b.toDB (s :: env)).map DB.lam

/-- Scope correctness of an `Expr` against a list of parameters in scope:
every `ParameterReference` points at an enclosing binder or a member of
the ambient list. -/
def Expr.ScopedIn : Expr → List Parameter → Prop
  | .ref p, env => p ∈ env
  | .apply f a, env => f.ScopedIn env ∧ a.ScopedIn env
  | .function p b, env => b.ScopedIn (p :: env)

instance Expr.instDecidableScopedIn :
    (e : Expr) → (env : List Parameter) → Decidable (e.ScopedIn env)
  | .ref p, env => inferInstanceAs (Decidable (p ∈ env))
  | .apply f a, env =>
    have := Expr.instDecidableScopedIn f env
    have := Expr.instDecidableScopedIn a env
    inferInstanceAs (Decidable (_ ∧ _))
  | .function p b, env => Expr.instDecidableScopedIn b (p :: env)

/-- All binder parameters of an `Expr`, in pre-order. -/
def Expr.binders : Expr → List Parameter
  | .apply f a => f.binders ++ a.binders
  | .function p b => p :: b.binders
  | .ref _ => []

/-- The spec's well-formedness invariant (section 3): every reference
points at an enclosing binder, and no `Parameter` is reused by two
different `FunctionExpr` nodes. -/
def Expr.WellFormed (e : Expr) : Prop :=
  e.ScopedIn [] ∧ e.binders.Nodup

instance (e : Expr) : Decidable e.WellFormed := by
  unfold Expr.WellFormed
  infer_instance

/-- The pairing context of alpha-equivalence: `PairMem Γ p q` holds when
the innermost pair of corresponding binders mentioning `p` on the left or
`q` on the right is exactly `(p, q)`. -/
inductive PairMem : List (Parameter × Parameter) → Parameter → Parameter → Prop where
  | head (p q : Parameter) (Γ : List (Parameter × Parameter)) : PairMem ((p, q) :: Γ) p q
  | tail {p' q' p q : Parameter} {Γ : List (Parameter × Parameter)} :
    p' ≠ p → q' ≠ q → PairMem Γ p q → PairMem ((p', q') :: Γ) p q

/-- Alpha-equivalence of two `Expr`s relative to a context of paired
binders: identical structure up to a consistent renaming of bound
parameters. -/
inductive Alpha : List (Parameter × Parameter) → Expr → Expr → Prop where
  | ref {Γ p q} : PairMem Γ p q → Alpha Γ (.ref p) (.ref q)
  | app {Γ f₁ a₁ f₂ a₂} : Alpha Γ f₁ f₂ → Alpha Γ a₁ a₂ →
    Alpha Γ (.apply f₁ a₁) (.apply f₂ a₂)
  | lam {Γ p q b₁ b₂} : Alpha ((p, q) :: Γ) b₁ b₂ →
    Alpha Γ (.function p b₁) (.function q b₂)

/-- Alpha-equivalence of two closed `Expr`s. -/
def AlphaEq (e₁ e₂ : Expr) : Prop := Alpha [] e₁ e₂

/-- Value binders of a replacement map: every binder occurring inside a
mapped-to expression. -/
def replValBinders (repl : List (Parameter × Expr)) : List Parameter :=
  repl.flatMap (fun q => q.2.binders)

/-- Reference definition for substitution, following the spec's words
(section 4.7): replace every reference through the replacement map, and
re-allocate every binder strictly inside the body as a brand-new
`Parameter` with the same display name (fresh ids drawn from `fresh`
upward, in traversal order).  `FunctionExpr.__call__` is proved to
compute exactly this. -/
def substituteSpec (repl : List (Parameter × Expr)) (fresh : Nat) :
    Expr → Option (Expr × Nat)
  | .ref p => (assocGet repl p).map (fun rep => (rep, fresh))
  | .apply f a =>
    match substituteSpec repl fresh f with
    | none => none
    | some (f', n₁) =>
      match substituteSpec repl n₁ a with
      | none => none
      | some (a', n₂) => some (.apply f' a', n₂)
  | .function p b =>
    match substituteSpec (repl ++ [(p, .ref ⟨fresh, p.name⟩)]) (fresh + 1) b with
    | none => none
    | some (b', n') => some (.function ⟨fresh, p.name⟩ b', n')

theorem runSteps_append {σ α : Type} (step : σ → α → Except Err σ) (s : σ)
    (l₁ l₂ : List α) :
    runSteps step s (l₁ ++ l₂) =
      match runSteps step s l₁ with
      | .ok s' => runSteps step s' l₂
      | .error e => .error e := by
  induction l₁ generalizing s with
  | nil => simp [runSteps]
  | cons a rest ih =>
    simp only [List.cons_append, runSteps]
    cases step s a with
    | ok s' => exact ih s'
    | error e => rfl

theorem runSteps_append_ok {σ α : Type} {step : σ → α → Except Err σ} {s s' : σ}
    {l₁ : List α} (l₂ : List α) (h : runSteps step s l₁ = .ok s') :
    runSteps step s (l₁ ++ l₂) = runSteps step s' l₂ := by
  rw [runSteps_append, h]

theorem runSteps_append_err {σ α : Type} {step : σ → α → Except Err σ} {s : σ}
    {er : Err} {l₁ : List α} (l₂ : List α) (h : runSteps step s l₁ = .error er) :
    runSteps step s (l₁ ++ l₂) = .error er := by
  rw [runSteps_append, h]

theorem assocGet_none_iff {α β : Type} [DecidableEq α] (l : List (α × β)) (a : α) :
    assocGet l a = none ↔ a ∉ l.map Prod.fst := by
  induction l with
  | nil => simp [assocGet]
  | cons kv rest ih =>
    obtain ⟨k, v⟩ := kv
    by_cases h : k = a
    · subst h
      simp [assocGet]
    · simp [assocGet, h, ih, Ne.symm h]

theorem assocGet_append_left {α β : Type} [DecidableEq α] {l₁ : List (α × β)}
    {a : α} {v : β} (l₂ : List (α × β)) (h : assocGet l₁ a = some v) :
    assocGet (l₁ ++ l₂) a = some v := by
  induction l₁ with
  | nil => simp [assocGet] at h
  | cons kv rest ih =>
    obtain ⟨k, w⟩ := kv
    by_cases hk : k = a
    · subst hk
      simp [assocGet] at h ⊢
      exact h
    · simp [assocGet, hk] at h ⊢
      exact ih h

theorem assocGet_append_right {α β : Type} [DecidableEq α] {l₁ : List (α × β)}
    {a : α} (l₂ : List (α × β)) (h : assocGet l₁ a = none) :
    assocGet (l₁ ++ l₂) a = assocGet l₂ a := by
  induction l₁ with
  | nil => simp
  | cons kv rest ih =>
    obtain ⟨k, w⟩ := kv
    by_cases hk : k = a
    · subst hk
      simp [assocGet] at h
    · simp [assocGet, hk] at h ⊢
      exact ih h

theorem assocErase_append_of_none {α β : Type} [DecidableEq α] {l₁ : List (α × β)}
    {a : α} (l₂ : List (α × β)) (h : assocGet l₁ a = none) :
    assocErase (l₁ ++ l₂) a = l₁ ++ assocErase l₂ a := by
  induction l₁ with
  | nil => simp
  | cons kv rest ih =>
    obtain ⟨k, w⟩ := kv
    by_cases hk : k = a
    · subst hk
      simp [assocGet] at h
    · simp [assocGet, hk] at h
      simp [assocErase, hk, ih h]

theorem assocGet_snd_mem {α β : Type} [DecidableEq α] {l : List (α × β)}
    {a : α} {v : β} (h : assocGet l a = some v) : v ∈ l.map Prod.snd := by
  induction l with
  | nil => simp [assocGet] at h
  | cons kv rest ih =>
    obtain ⟨k, w⟩ := kv
    by_cases hk : k = a
    · subst hk
      simp [assocGet] at h
      simp [h]
    · simp [assocGet, hk] at h
      simp [ih h]

theorem idxOf?_lt_length {α : Type} [DecidableEq α] {a : α} {l : List α} {k : Nat}
    (h : idxOf? a l = some k) : k < l.length := by
  induction l generalizing k with
  | nil => simp [idxOf?] at h
  | cons b rest ih =>
    simp only [List.length_cons]
    by_cases hb : b = a
    · simp [idxOf?, hb] at h
      omega
    · simp [idxOf?, hb] at h
      obtain ⟨k', hk', rfl⟩ := h
      have := ih hk'
      omega

theorem idxOf?_isSome_of_mem {α : Type} [DecidableEq α] {a : α} {l : List α}
    (h : a ∈ l) : ∃ k, idxOf? a l = some k := by
  induction l with
  | nil => simp at h
  | cons b rest ih =>
    by_cases hb : b = a
    · exact ⟨0, by simp [idxOf?, hb]⟩
    · have : a ∈ rest := by
        cases h with
        | head => exact absurd rfl hb
        | tail _ h' => exact h'
      obtain ⟨k, hk⟩ := ih this
      exact ⟨k + 1, by simp [idxOf?, hb, hk]⟩

theorem mem_of_idxOf? {α : Type} [DecidableEq α] {a : α} {l : List α} {k : Nat}
    (h : idxOf? a l = some k) : a ∈ l := by
  induction l generalizing k with
  | nil => simp [idxOf?] at h
  | cons b rest ih =>
    by_cases hb : b = a
    · simp [hb]
    · simp [idxOf?, hb] at h
      obtain ⟨k', hk', rfl⟩ := h
      simp [ih hk']

theorem mem_of_getElem? {α : Type} {l : List α} {k : Nat} {a : α}
    (h : l[k]? = some a) : a ∈ l := by
  induction l generalizing k with
  | nil => simp at h
  | cons b rest ih =>
    cases k with
    | zero =>
      simp at h
      simp [h]
    | succ k' =>
      simp at h
      exact List.mem_cons_of_mem _ (ih h)

theorem idxOf?_getElem? {α : Type} [DecidableEq α] {a : α} {l : List α} {k : Nat}
    (h : idxOf? a l = some k) : l[k]? = some a := by
  induction l generalizing k with
  | nil => simp [idxOf?] at h
  | cons b rest ih =>
    by_cases hb : b = a
    · subst hb
      simp [idxOf?] at h
      simp [← h]
    · simp [idxOf?, hb] at h
      obtain ⟨k', hk', rfl⟩ := h
      simp [ih hk']

theorem getElem?_idxOf? {α : Type} [DecidableEq α] {a : α} {l : List α} {k : Nat}
    (hnd : l.Nodup) (h : l[k]? = some a) : idxOf? a l = some k := by
  induction l generalizing k with
  | nil => simp at h
  | cons b rest ih =>
    cases k with
    | zero =>
      simp at h
      simp [idxOf?, h]
    | succ k' =>
      simp at h
      have hb : b ≠ a := by
        intro hba
        subst hba
        exact (List.nodup_cons.mp hnd).1 (mem_of_getElem? h)
      simp [idxOf?, hb, ih (List.nodup_cons.mp hnd).2 h]

theorem assocGet_fst_idx {α β : Type} [DecidableEq α] {L : List (α × β)} {a : α}
    {k : Nat} (h : idxOf? a (L.map Prod.fst) = some k) :
    ∃ b, assocGet L a = some b ∧ (L.map Prod.snd)[k]? = some b := by
  induction L generalizing k with
  | nil => simp [idxOf?] at h
  | cons kv rest ih =>
    obtain ⟨k', v⟩ := kv
    by_cases hk : k' = a
    · subst hk
      simp [idxOf?] at h
      subst h
      exact ⟨v, by simp [assocGet], by simp⟩
    · simp [idxOf?, hk] at h
      obtain ⟨j, hj, rfl⟩ := h
      obtain ⟨b, hb, hg⟩ := ih hj
      exact ⟨b, by simp [assocGet, hk, hb], by simpa using hg⟩

theorem assocGet_reverse {α β : Type} [DecidableEq α] {L : List (α × β)}
    (hnd : (L.map Prod.fst).Nodup) (a : α) :
    assocGet L.reverse a = assocGet L a := by
  induction L with
  | nil => simp
  | cons kv rest ih =>
    obtain ⟨k, v⟩ := kv
    simp only [List.map_cons, List.nodup_cons] at hnd
    by_cases hk : k = a
    · subst hk
      have hrest : assocGet rest k = none := (assocGet_none_iff rest k).mpr hnd.1
      have hrev : assocGet rest.reverse k = none := by
        rw [assocGet_none_iff, List.map_reverse, List.mem_reverse]
        exact hnd.1
      simp only [List.reverse_cons]
      rw [assocGet_append_right _ hrev]
      simp [assocGet]
    · simp only [List.reverse_cons]
      rw [assocGet, if_neg hk, ← ih hnd.2]
      cases hrev : assocGet rest.reverse a with
      | some v' =>
        rw [assocGet_append_left _ hrev]
      | none =>
        rw [assocGet_append_right _ hrev]
        simp [assocGet, hk, hrev]

/-- The `bindings` dictionary of `bitstring` corresponding to an
environment of open binders (innermost first): each parameter mapped to
the number of binders that were open when it was opened. -/
def stdMap : List Parameter → List (Parameter × Nat)
  | [] => []
  | p :: rest => stdMap rest ++ [(p, rest.length)]

theorem stdMap_length (env : List Parameter) : (stdMap env).length = env.length := by
  induction env with
  | nil => rfl
  | cons p rest ih => simp [stdMap, ih]

theorem assocGet_stdMap_none {p : Parameter} {env : List Parameter}
    (h : p ∉ env) : assocGet (stdMap env) p = none := by
  induction env with
  | nil => rfl
  | cons q rest ih =>
    simp only [List.mem_cons, not_or] at h
    rw [stdMap, assocGet_append_right _ (ih h.2)]
    simp [assocGet, Ne.symm h.1]

theorem assocGet_stdMap {p : Parameter} {env : List Parameter} {k : Nat}
    (hnd : env.Nodup) (h : idxOf? p env = some k) :
    assocGet (stdMap env) p = some (env.length - 1 - k) := by
  induction env generalizing k with
  | nil => simp [idxOf?] at h
  | cons q rest ih =>
    rw [stdMap]
    by_cases hq : q = p
    · subst hq
      simp [idxOf?] at h
      subst h
      have hnotin : q ∉ rest := (List.nodup_cons.mp hnd).1
      rw [assocGet_append_right _ (assocGet_stdMap_none hnotin)]
      simp [assocGet]
    · simp [idxOf?, hq] at h
      obtain ⟨k', hk', rfl⟩ := h
      rw [assocGet_append_left _ (ih (List.nodup_cons.mp hnd).2 hk')]
      have : rest.length - 1 - k' = (q :: rest).length - 1 - (k' + 1) := by
        simp only [List.length_cons]
        omega
      rw [this]

theorem toDB_isSome {e : Expr} : ∀ {env : List Parameter},
    e.ScopedIn env → ∃ d, e.toDB env = some d := by
  induction e with
  | ref p =>
    intro env hs
    obtain ⟨k, hk⟩ := idxOf?_isSome_of_mem hs
    exact ⟨.var k, by simp [Expr.toDB, hk]⟩
  | apply f a ihf iha =>
    intro env hs
    obtain ⟨df, hdf⟩ := ihf hs.1
    obtain ⟨da, hda⟩ := iha hs.2
    exact ⟨.app df da, by simp [Expr.toDB, hdf, hda]⟩
  | function p b ihb =>
    intro env hs
    obtain ⟨db, hdb⟩ := ihb hs
    exact ⟨.lam db, by simp [Expr.toDB, hdb]⟩

theorem bsRun (e : Expr) : ∀ (env : List Parameter) (bits : List Char) (d : DB),
    e.ScopedIn env → (env ++ e.binders).Nodup → e.toDB env = some d →
    runSteps bsStep (stdMap env, bits) e.flatten = .ok (stdMap env, bits ++ d.bits) := by
  induction e with
  | ref p =>
    intro env bits d hs hnd htd
    have hndenv : env.Nodup := by simpa [Expr.binders] using hnd
    simp only [Expr.toDB] at htd
    cases hidx : idxOf? p env with
    | none => simp [hidx] at htd
    | some k =>
      rw [hidx] at htd
      have hvd : DB.var k = d := by simpa using htd
      have hk : k < env.length := idxOf?_lt_length hidx
      have hget := assocGet_stdMap hndenv hidx
      subst hvd
      simp only [Expr.flatten, runSteps, bsStep, hget, stdMap_length]
      have : env.length - 1 - (env.length - 1 - k) = k := by omega
      rw [this]
      simp [DB.bits]
  | apply f a ihf iha =>
    intro env bits d hs hnd htd
    simp only [Expr.toDB] at htd
    cases hdf : f.toDB env with
    | none => simp [hdf] at htd
    | some df =>
      cases hda : a.toDB env with
      | none => simp [hdf, hda] at htd
      | some da =>
        rw [hdf, hda] at htd
        simp only [Option.some.injEq] at htd
        subst htd
        have hndf : (env ++ f.binders).Nodup := by
          refine List.Nodup.sublist ?_ hnd
          exact (List.sublist_append_left f.binders a.binders).append_left env
        have hnda : (env ++ a.binders).Nodup := by
          refine List.Nodup.sublist ?_ hnd
          exact (List.sublist_append_right f.binders a.binders).append_left env
        have hrf := ihf env (bits ++ ['0', '1']) df hs.1 hndf hdf
        have hra := iha env (bits ++ ['0', '1'] ++ df.bits) da hs.2 hnda hda
        simp only [Expr.flatten, runSteps, bsStep]
        rw [show f.flatten ++ a.flatten ++ [Piece.closeApply] =
          f.flatten ++ (a.flatten ++ [Piece.closeApply]) by simp]
        rw [runSteps_append_ok _ hrf, runSteps_append_ok _ hra]
        simp [runSteps, bsStep, DB.bits]
  | function p b ihb =>
    intro env bits d hs hnd htd
    simp only [Expr.toDB] at htd
    cases hdb : b.toDB (p :: env) with
    | none => simp [hdb] at htd
    | some db =>
      rw [hdb] at htd
      have hvd : DB.lam db = d := by simpa using htd
      subst hvd
      have hpenv : p ∉ env := by
        have hd := List.disjoint_of_nodup_append hnd
        intro hc
        exact hd hc (by simp [Expr.binders])
      have hnd' : ((p :: env) ++ b.binders).Nodup := by
        have hperm : (env ++ (p :: b.binders)).Perm (p :: (env ++ b.binders)) :=
          List.perm_middle
        have := hperm.nodup (by simpa [Expr.binders] using hnd)
        simpa using this
      have hrb := ihb (p :: env) (bits ++ ['0', '0']) db hs hnd' hdb
      simp only [Expr.flatten, runSteps, bsStep, assocGet_stdMap_none hpenv,
        Option.isSome_none, Bool.false_eq_true, if_false]
      rw [show stdMap env ++ [(p, (stdMap env).length)] = stdMap (p :: env) by
        rw [stdMap, stdMap_length]]
      rw [runSteps_append_ok _ hrb]
      have hclose : assocGet (stdMap (p :: env)) p = some env.length := by
        rw [stdMap, assocGet_append_right _ (assocGet_stdMap_none hpenv)]
        simp [assocGet]
      have herase : assocErase (stdMap (p :: env)) p = stdMap env := by
        rw [stdMap, assocErase_append_of_none _ (assocGet_stdMap_none hpenv)]
        simp [assocErase]
      simp only [runSteps, bsStep, hclose, herase, stdMap_length, if_pos rfl]
      simp [DB.bits]

/-- For a well-formed `Expr` the codec computes exactly the bit encoding
of its de Bruijn reading. -/
theorem bitstring_eq_toDB {e : Expr} {d : DB} (hwf : e.WellFormed)
    (htd : e.toDB [] = some d) : e.bitstring = .ok (String.mk d.bits) := by
  have := bsRun e [] [] d hwf.1 (by simpa using hwf.2) htd
  simp only [stdMap] at this
  simp [Expr.bitstring, this, Except.map]

theorem replicate_one_bits_inj : ∀ (n₁ n₂ : Nat) (s₁ s₂ : List Char),
    List.replicate n₁ '1' ++ '0' :: s₁ = List.replicate n₂ '1' ++ '0' :: s₂ →
    n₁ = n₂ ∧ s₁ = s₂ := by
  intro n₁
  induction n₁ with
  | zero =>
    intro n₂ s₁ s₂ h
    cases n₂ with
    | zero =>
      simp at h
      exact ⟨rfl, h⟩
    | succ m => simp [List.replicate_succ] at h
  | succ m ih =>
    intro n₂ s₁ s₂ h
    cases n₂ with
    | zero => simp [List.replicate_succ] at h
    | succ m₂ =>
      simp only [List.replicate_succ, List.cons_append, List.cons.injEq] at h
      obtain ⟨h1, h2⟩ := ih m₂ s₁ s₂ h.2
      exact ⟨by omega, h2⟩

/-- The canonical encoding is a prefix code: equal concatenations split
identically. -/
theorem DB.bits_append_inj : ∀ (d₁ d₂ : DB) (s₁ s₂ : List Char),
    d₁.bits ++ s₁ = d₂.bits ++ s₂ → d₁ = d₂ ∧ s₁ = s₂ := by
  intro d₁
  induction d₁ with
  | var n =>
    intro d₂ s₁ s₂ h
    cases d₂ with
    | var m =>
      simp only [DB.bits, List.cons_append, List.cons.injEq, List.append_assoc,
        List.cons_append] at h
      obtain ⟨h1, h2⟩ := replicate_one_bits_inj n m s₁ s₂ (by simpa using h.2)
      exact ⟨by rw [h1], h2⟩
    | app f a => simp [DB.bits] at h
    | lam b => simp [DB.bits] at h
  | app f a ihf iha =>
    intro d₂ s₁ s₂ h
    cases d₂ with
    | var m => simp [DB.bits] at h
    | app f₂ a₂ =>
      simp only [DB.bits, List.cons_append, List.cons.injEq, List.append_assoc] at h
      obtain ⟨hf, hs⟩ := ihf f₂ _ _ h.2.2
      obtain ⟨ha, hs'⟩ := iha a₂ _ _ hs
      exact ⟨by rw [hf, ha], hs'⟩
    | lam b => simp [DB.bits] at h
  | lam b ihb =>
    intro d₂ s₁ s₂ h
    cases d₂ with
    | var m => simp [DB.bits] at h
    | app f₂ a₂ => simp [DB.bits] at h
    | lam b₂ =>
      simp only [DB.bits, List.cons_append, List.cons.injEq] at h
      obtain ⟨hb, hs⟩ := ihb b₂ _ _ h.2.2
      exact ⟨by rw [hb], hs⟩

theorem DB.bits_inj {d₁ d₂ : DB} (h : d₁.bits = d₂.bits) : d₁ = d₂ := by
  have := DB.bits_append_inj d₁ d₂ [] [] (by simpa using h)
  exact this.1

/-- The root constructor of an `Expr` is visible in its de Bruijn
reading. -/
theorem Expr.toDB_tag {e : Expr} {env : List Parameter} {d : DB}
    (h : e.toDB env = some d) : e.tag = d.tag := by
  cases e with
  | ref p =>
    simp only [Expr.toDB] at h
    cases hidx : idxOf? p env with
    | none => simp [hidx] at h
    | some k =>
      rw [hidx] at h
      have : DB.var k = d := by simpa using h
      subst this
      rfl
  | apply f a =>
    simp only [Expr.toDB] at h
    cases hdf : f.toDB env with
    | none => simp [hdf] at h
    | some df =>
      cases hda : a.toDB env with
      | none => simp [hdf, hda] at h
      | some da =>
        rw [hdf, hda] at h
        have : DB.app df da = d := by simpa using h
        subst this
        rfl
  | function p b =>
    simp only [Expr.toDB] at h
    cases hdb : b.toDB (p :: env) with
    | none => simp [hdb] at h
    | some db =>
      rw [hdb] at h
      have : DB.lam db = d := by simpa using h
      subst this
      rfl

theorem PairMem_idx {Γ : List (Parameter × Parameter)} {p q : Parameter}
    (h : PairMem Γ p q) :
    idxOf? p (Γ.map Prod.fst) = idxOf? q (Γ.map Prod.snd) := by
  induction h with
  | head p q Γ => simp [idxOf?]
  | tail hp hq _ ih =>
    simp only [List.map_cons, idxOf?, if_neg hp, if_neg hq, ih]

theorem idx_PairMem : ∀ {Γ : List (Parameter × Parameter)} {p q : Parameter} {k : Nat},
    idxOf? p (Γ.map Prod.fst) = some k → idxOf? q (Γ.map Prod.snd) = some k →
    PairMem Γ p q := by
  intro Γ
  induction Γ with
  | nil => intro p q k hp _; simp [idxOf?] at hp
  | cons pr Γ' ih =>
    intro p q k hp hq
    obtain ⟨p', q'⟩ := pr
    simp only [List.map_cons, idxOf?] at hp hq
    by_cases hp' : p' = p
    · subst hp'
      rw [if_pos rfl] at hp
      by_cases hq' : q' = q
      · subst hq'
        exact PairMem.head ..
      · rw [if_neg hq'] at hq
        have hk : 0 = k := by simpa using hp
        subst hk
        cases hj : idxOf? q (Γ'.map Prod.snd) with
        | none => rw [hj] at hq; simp at hq
        | some j => rw [hj] at hq; simp at hq
    · rw [if_neg hp'] at hp
      by_cases hq' : q' = q
      · subst hq'
        rw [if_pos rfl] at hq
        have hk : 0 = k := by simpa using hq
        subst hk
        cases hj : idxOf? p (Γ'.map Prod.fst) with
        | none => rw [hj] at hp; simp at hp
        | some j => rw [hj] at hp; simp at hp
      · rw [if_neg hq'] at hq
        cases hjp : idxOf? p (Γ'.map Prod.fst) with
        | none => rw [hjp] at hp; simp at hp
        | some jp =>
          cases hjq : idxOf? q (Γ'.map Prod.snd) with
          | none => rw [hjq] at hq; simp at hq
          | some jq =>
            rw [hjp] at hp
            rw [hjq] at hq
            simp at hp hq
            have : jq = jp := by omega
            subst this
            exact PairMem.tail hp' hq' (ih hjp hjq)

/-- Alpha-equivalent expressions have the same de Bruijn reading against
their paired contexts. -/
theorem Alpha_toDB {Γ : List (Parameter × Parameter)} {e₁ e₂ : Expr}
    (h : Alpha Γ e₁ e₂) :
    e₁.toDB (Γ.map Prod.fst) = e₂.toDB (Γ.map Prod.snd) := by
  induction h with
  | ref hpm => simp [Expr.toDB, PairMem_idx hpm]
  | app _ _ ihf iha => simp [Expr.toDB, ihf, iha]
  | lam _ ihb =>
    simp only [List.map_cons] at ihb
    simp [Expr.toDB, ihb]

/-- Equal de Bruijn readings against paired contexts rebuild an
alpha-equivalence derivation. -/
theorem toDB_Alpha : ∀ (e₁ e₂ : Expr) (Γ : List (Parameter × Parameter)) (d : DB),
    e₁.toDB (Γ.map Prod.fst) = some d → e₂.toDB (Γ.map Prod.snd) = some d →
    Alpha Γ e₁ e₂ := by
  intro e₁
  induction e₁ with
  | ref p =>
    intro e₂ Γ d h₁ h₂
    simp only [Expr.toDB] at h₁
    cases hidx : idxOf? p (Γ.map Prod.fst) with
    | none => simp [hidx] at h₁
    | some k =>
      rw [hidx] at h₁
      have : DB.var k = d := by simpa using h₁
      subst this
      cases e₂ with
      | ref q =>
        simp only [Expr.toDB] at h₂
        cases hidx₂ : idxOf? q (Γ.map Prod.snd) with
        | none => simp [hidx₂] at h₂
        | some k₂ =>
          rw [hidx₂] at h₂
          have : k₂ = k := by simpa using h₂
          subst this
          exact Alpha.ref (idx_PairMem hidx hidx₂)
      | apply f a =>
        simp only [Expr.toDB] at h₂
        cases hdf : f.toDB (Γ.map Prod.snd) <;>
          cases hda : a.toDB (Γ.map Prod.snd) <;> simp [hdf, hda] at h₂
      | function q b =>
        simp only [Expr.toDB] at h₂
        cases hdb : b.toDB (q :: Γ.map Prod.snd) <;> simp [hdb] at h₂
  | apply f a ihf iha =>
    intro e₂ Γ d h₁ h₂
    simp only [Expr.toDB] at h₁
    cases hdf : f.toDB (Γ.map Prod.fst) with
    | none => simp [hdf] at h₁
    | some df =>
      cases hda : a.toDB (Γ.map Prod.fst) with
      | none => simp [hdf, hda] at h₁
      | some da =>
        rw [hdf, hda] at h₁
        have : DB.app df da = d := by simpa using h₁
        subst this
        cases e₂ with
        | ref q =>
          simp only [Expr.toDB] at h₂
          cases hidx₂ : idxOf? q (Γ.map Prod.snd) <;> simp [hidx₂] at h₂
        | apply f₂ a₂ =>
          simp only [Expr.toDB] at h₂
          cases hdf₂ : f₂.toDB (Γ.map Prod.snd) with
          | none => simp [hdf₂] at h₂
          | some df₂ =>
            cases hda₂ : a₂.toDB (Γ.map Prod.snd) with
            | none => simp [hdf₂, hda₂] at h₂
            | some da₂ =>
              rw [hdf₂, hda₂] at h₂
              have hfa : DB.app df₂ da₂ = DB.app df da := by simpa using h₂
              injection hfa with hf' ha'
              subst hf'
              subst ha'
              exact Alpha.app (ihf f₂ Γ _ hdf hdf₂) (iha a₂ Γ _ hda hda₂)
        | function q b =>
          simp only [Expr.toDB] at h₂
          cases hdb : b.toDB (q :: Γ.map Prod.snd) <;> simp [hdb] at h₂
  | function p b ihb =>
    intro e₂ Γ d h₁ h₂
    simp only [Expr.toDB] at h₁
    cases hdb : b.toDB (p :: Γ.map Prod.fst) with
    | none => simp [hdb] at h₁
    | some db =>
      rw [hdb] at h₁
      have : DB.lam db = d := by simpa using h₁
      subst this
      cases e₂ with
      | ref q =>
        simp only [Expr.toDB] at h₂
        cases hidx₂ : idxOf? q (Γ.map Prod.snd) <;> simp [hidx₂] at h₂
      | apply f₂ a₂ =>
        simp only [Expr.toDB] at h₂
        cases hdf₂ : f₂.toDB (Γ.map Prod.snd) <;>
          cases hda₂ : a₂.toDB (Γ.map Prod.snd) <;> simp [hdf₂, hda₂] at h₂
      | function q b₂ =>
        simp only [Expr.toDB] at h₂
        cases hdb₂ : b₂.toDB (q :: Γ.map Prod.snd) with
        | none => simp [hdb₂] at h₂
        | some db₂ =>
          rw [hdb₂] at h₂
          have hdd : db₂ = db := by simpa using h₂
          subst hdd
          refine Alpha.lam (ihb b₂ ((p, q) :: Γ) db₂ ?_ ?_)
          · simpa using hdb
          · simpa using hdb₂

theorem strAppend_data (a b : String) : (a ++ b).data = a.data ++ b.data := by
  cases a
  cases b
  rfl

theorem strPush_data (s : String) (c : Char) : (s.push c).data = s.data ++ [c] := by
  cases s
  rfl

theorem str_ext {a b : String} (h : a.data = b.data) : a = b := by
  cases a
  cases b
  exact congrArg String.mk h

theorem strAppend_cancel {b s t : String} (h : b ++ s = b ++ t) : s = t := by
  have hd := congrArg String.data h
  rw [strAppend_data, strAppend_data] at hd
  exact str_ext (List.append_cancel_left hd)

/-- The all-zeros digit suffix of a given length. -/
def zeros (k : Nat) : String := String.mk (List.replicate k '0')

theorem zeros_inj {k j : Nat} (h : zeros k = zeros j) : k = j := by
  have := congrArg (fun s => s.data.length) h
  simpa [zeros] using this

theorem zeros_mem_suffixes : ∀ k, zeros k ∈ suffixes k := by
  intro k
  induction k with
  | zero => simp [zeros, suffixes]
  | succ k ih =>
    have hz : zeros (k + 1) = (zeros k).push '0' := by
      apply str_ext
      rw [strPush_data]
      simp [zeros, List.replicate_succ']
    rw [suffixes, List.mem_flatMap]
    refine ⟨zeros k, ih, ?_⟩
    rw [List.mem_map]
    exact ⟨'0', by simp [DIGITS], hz.symm⟩

theorem mem_variantsUpTo {base : String} {k n : Nat} (h : k < n) :
    base ++ zeros k ∈ variantsUpTo base n := by
  induction n with
  | zero => omega
  | succ n ih =>
    rw [variantsUpTo, List.mem_append]
    by_cases hk : k < n
    · exact Or.inl (ih hk)
    · have : k = n := by omega
      subst this
      exact Or.inr (List.mem_map.mpr ⟨zeros k, zeros_mem_suffixes k, rfl⟩)

theorem strMem_iff {s : String} {l : List String} : strMem s l = true ↔ s ∈ l := by
  rw [strMem, List.any_eq_true]
  constructor
  · rintro ⟨t, htl, hts⟩
    have ht : t = s := of_decide_eq_true hts
    exact ht ▸ htl
  · intro hm
    exact ⟨s, hm, by simp⟩

theorem exists_fresh (avoid : List String) (base : String) :
    ∃ v ∈ variantsUpTo base (avoid.length + 1), v ∉ avoid := by
  by_contra hcon
  push_neg at hcon
  have hinj : Function.Injective (fun k => base ++ zeros k) := by
    intro k j hkj
    exact zeros_inj (strAppend_cancel hkj)
  have hnodup : ((List.range (avoid.length + 1)).map (fun k => base ++ zeros k)).Nodup :=
    (List.nodup_range _).map hinj
  have hsub : ((List.range (avoid.length + 1)).map (fun k => base ++ zeros k)) ⊆ avoid := by
    intro v hv
    simp only [List.mem_map, List.mem_range] at hv
    obtain ⟨k, hk, rfl⟩ := hv
    exact hcon _ (mem_variantsUpTo hk)
  have hlen := (List.subperm_of_subset hnodup hsub).length_le
  simp at hlen

/-- The chosen name is always fresh for the avoid set: the bounded scan of
`name_avoiding` never falls through to its default. -/
theorem name_avoiding_fresh (avoid : List String) (base : String) :
    name_avoiding avoid base ∉ avoid := by
  unfold name_avoiding
  obtain ⟨v, hvmem, hvnot⟩ := exists_fresh avoid base
  cases hfind : (variantsUpTo base (avoid.length + 1)).find? (fun v => !strMem v avoid) with
  | some w =>
    intro hmem
    have hw := List.find?_some hfind
    rw [strMem_iff.mpr hmem] at hw
    simp at hw
  | none =>
    exfalso
    have hnone := List.find?_eq_none.mp hfind v hvmem
    simp only [Bool.not_eq_true'] at hnone
    rw [← Bool.not_eq_true] at hnone
    exact hnone (by simpa [strMem_iff] using hvnot)

/-- Main invariant of `bind`'s event loop: running it over the traversal
of a raw subtree, from a state whose bindings list carries distinct
parameters with ids below the allocation counter, either produces exactly
the expression whose de Bruijn reading matches the raw subtree's (and
pushes it on the stack, restoring the bindings), or fails with the lookup
error, according to whether the subtree's names all resolve. -/
theorem bindRun (a : Ast) :
    ∀ (stack : List Expr) (bnd : List (String × Parameter)) (next : Nat)
      (names : List String) (params : List Parameter),
      names = (bnd.map Prod.fst).reverse →
      params = (bnd.map Prod.snd).reverse →
      params.Nodup → (∀ q ∈ params, q.id < next) →
      (∀ d, Ast.toDB a names = some d →
        ∃ e next', runSteps bindStep ⟨stack, bnd, next⟩ a.flatten =
            .ok ⟨e :: stack, bnd, next'⟩ ∧
          next ≤ next' ∧ e.toDB params = some d ∧ e.ScopedIn params ∧
          e.binders.Nodup ∧ (∀ q ∈ e.binders, next ≤ q.id ∧ q.id < next')) ∧
      (Ast.toDB a names = none →
        runSteps bindStep ⟨stack, bnd, next⟩ a.flatten = .error .failedLookup) := by
  induction a with
  | name s =>
    intro stack bnd next names params hn hp hnd hlt
    have hfst : bnd.reverse.map Prod.fst = names := by
      rw [hn, List.map_reverse]
    have hsnd : bnd.reverse.map Prod.snd = params := by
      rw [hp, List.map_reverse]
    constructor
    · intro d hd
      simp only [Ast.toDB] at hd
      cases hidx : idxOf? s names with
      | none => simp [hidx] at hd
      | some k =>
        rw [hidx] at hd
        have hd' : DB.var k = d := by simpa using hd
        subst hd'
        obtain ⟨p, hget, hgk⟩ := assocGet_fst_idx (L := bnd.reverse) (by rw [hfst]; exact hidx)
        rw [hsnd] at hgk
        have hlook : lookup bnd s = .ok p := by
          rw [lookup, hget]
        refine ⟨.ref p, next, ?_, le_refl next, ?_, ?_, ?_, ?_⟩
        · simp [Ast.flatten, runSteps, bindStep, hlook]
        · simp [Expr.toDB, getElem?_idxOf? hnd hgk]
        · exact mem_of_getElem? hgk
        · simp [Expr.binders]
        · simp [Expr.binders]
    · intro hd
      simp only [Ast.toDB] at hd
      cases hidx : idxOf? s names with
      | some k => simp [hidx] at hd
      | none =>
        have hnot : s ∉ names := by
          intro hmem
          obtain ⟨k, hk⟩ := idxOf?_isSome_of_mem hmem
          rw [hk] at hidx
          cases hidx
        have hget : assocGet bnd.reverse s = none := by
          rw [assocGet_none_iff, hfst]
          exact hnot
        have hlook : lookup bnd s = .error .failedLookup := by
          rw [lookup, hget]
        simp [Ast.flatten, runSteps, bindStep, hlook]
  | apply f a ihf iha =>
    intro stack bnd next names params hn hp hnd hlt
    constructor
    · intro d hd
      simp only [Ast.toDB] at hd
      cases hdf : f.toDB names with
      | none => simp [hdf] at hd
      | some df =>
        cases hda : a.toDB names with
        | none => simp [hdf, hda] at hd
        | some da =>
          rw [hdf, hda] at hd
          have hd' : DB.app df da = d := by simpa using hd
          subst hd'
          obtain ⟨ef, n₁, hrf, hle₁, htf, hsf, hbf, hrangef⟩ :=
            (ihf stack bnd next names params hn hp hnd hlt).1 df hdf
          have hlt₁ : ∀ q ∈ params, q.id < n₁ := fun q hq => lt_of_lt_of_le (hlt q hq) hle₁
          obtain ⟨ea, n₂, hra, hle₂, hta, hsa, hba, hrangea⟩ :=
            (iha (ef :: stack) bnd n₁ names params hn hp hnd hlt₁).1 da hda
          refine ⟨.apply ef ea, n₂, ?_, le_trans hle₁ hle₂, ?_, ⟨hsf, hsa⟩, ?_, ?_⟩
          · simp only [Ast.flatten, runSteps, bindStep]
            rw [show f.flatten ++ a.flatten ++ [AstPiece.closeApply] =
              f.flatten ++ (a.flatten ++ [AstPiece.closeApply]) by simp]
            rw [runSteps_append_ok _ hrf, runSteps_append_ok _ hra]
            simp [runSteps, bindStep]
          · simp [Expr.toDB, htf, hta]
          · simp only [Expr.binders]
            refine List.Nodup.append hbf hba ?_
            rw [List.disjoint_left]
            intro q hqf hqa
            have h1 := (hrangef q hqf).2
            have h2 := (hrangea q hqa).1
            omega
          · intro q hq
            simp only [Expr.binders, List.mem_append] at hq
            cases hq with
            | inl hqf =>
              have := hrangef q hqf
              omega
            | inr hqa =>
              have := hrangea q hqa
              omega
    · intro hd
      simp only [Ast.toDB] at hd
      cases hdf : f.toDB names with
      | none =>
        have herr := (ihf stack bnd next names params hn hp hnd hlt).2 hdf
        simp only [Ast.flatten, runSteps, bindStep]
        rw [show f.flatten ++ a.flatten ++ [AstPiece.closeApply] =
          f.flatten ++ (a.flatten ++ [AstPiece.closeApply]) by simp]
        rw [runSteps_append_err _ herr]
      | some df =>
        cases hda : a.toDB names with
        | some da => rw [hdf, hda] at hd; simp at hd
        | none =>
          obtain ⟨ef, n₁, hrf, hle₁, _, _, _, _⟩ :=
            (ihf stack bnd next names params hn hp hnd hlt).1 df hdf
          have hlt₁ : ∀ q ∈ params, q.id < n₁ := fun q hq => lt_of_lt_of_le (hlt q hq) hle₁
          have herr := (iha (ef :: stack) bnd n₁ names params hn hp hnd hlt₁).2 hda
          simp only [Ast.flatten, runSteps, bindStep]
          rw [show f.flatten ++ a.flatten ++ [AstPiece.closeApply] =
            f.flatten ++ (a.flatten ++ [AstPiece.closeApply]) by simp]
          rw [runSteps_append_ok _ hrf, runSteps_append_err _ herr]
  | function s b ihb =>
    intro stack bnd next names params hn hp hnd hlt
    have hnames₁ : s :: names = ((bnd ++ [(s, (⟨next, s⟩ : Parameter))]).map Prod.fst).reverse := by
      simp [hn]
    have hparams₁ : (⟨next, s⟩ : Parameter) :: params =
        ((bnd ++ [(s, (⟨next, s⟩ : Parameter))]).map Prod.snd).reverse := by
      simp [hp]
    have hnd₁ : ((⟨next, s⟩ : Parameter) :: params).Nodup := by
      rw [List.nodup_cons]
      refine ⟨?_, hnd⟩
      intro hmem
      have := hlt _ hmem
      simp at this
    have hlt₁ : ∀ q ∈ (⟨next, s⟩ : Parameter) :: params, q.id < next + 1 := by
      intro q hq
      rcases List.mem_cons.mp hq with h | h
      · subst h; simp
      · have := hlt q h; omega
    have hlast : (bnd ++ [(s, (⟨next, s⟩ : Parameter))]).getLast? =
        some (s, (⟨next, s⟩ : Parameter)) := by simp
    have hdrop : (bnd ++ [(s, (⟨next, s⟩ : Parameter))]).dropLast = bnd := by simp
    constructor
    · intro d hd
      simp only [Ast.toDB] at hd
      cases hdb : b.toDB (s :: names) with
      | none => simp [hdb] at hd
      | some db =>
        rw [hdb] at hd
        have hd' : DB.lam db = d := by simpa using hd
        subst hd'
        obtain ⟨eb, n', hrb, hle, htb, hsb, hbb, hrangeb⟩ :=
          (ihb stack (bnd ++ [(s, ⟨next, s⟩)]) (next + 1) (s :: names)
            ((⟨next, s⟩ : Parameter) :: params) hnames₁ hparams₁ hnd₁ hlt₁).1 db hdb
        refine ⟨.function ⟨next, s⟩ eb, n', ?_, by omega, ?_, hsb, ?_, ?_⟩
        · simp only [Ast.flatten, runSteps, bindStep]
          rw [runSteps_append_ok _ hrb]
          simp [runSteps, bindStep, hlast, hdrop]
        · simp [Expr.toDB, htb]
        · simp only [Expr.binders, List.nodup_cons]
          refine ⟨?_, hbb⟩
          intro hmem
          have := (hrangeb _ hmem).1
          simp at this
        · intro q hq
          simp only [Expr.binders, List.mem_cons] at hq
          rcases hq with h | h
          · subst h
            simp
            omega
          · have := hrangeb q h
            omega
    · intro hd
      simp only [Ast.toDB] at hd
      cases hdb : b.toDB (s :: names) with
      | some db => rw [hdb] at hd; simp at hd
      | none =>
        have herr := (ihb stack (bnd ++ [(s, ⟨next, s⟩)]) (next + 1) (s :: names)
          ((⟨next, s⟩ : Parameter) :: params) hnames₁ hparams₁ hnd₁ hlt₁).2 hdb
        simp only [Ast.flatten, runSteps, bindStep]
        rw [runSteps_append_err _ herr]

theorem bind_def (a : Ast) : bind a =
    match runSteps bindStep ⟨[], [], 0⟩ a.flatten with
    | .ok st =>
      match st.exprStack with
      | [e] => .ok e
      | _ => .error .indexError
    | .error e => .error e := rfl

theorem bind_of_toDB {a : Ast} {d : DB} (h : Ast.toDB a [] = some d) :
    ∃ e, bind a = .ok e ∧ e.toDB [] = some d ∧ e.WellFormed := by
  obtain ⟨e, n', hr, _, htd, hs, hb, _⟩ :=
    (bindRun a [] [] 0 [] [] rfl rfl (by simp) (by simp)).1 d h
  refine ⟨e, ?_, htd, hs, hb⟩
  rw [bind_def, hr]

theorem bind_none_of_toDB {a : Ast} (h : Ast.toDB a [] = none) :
    bind a = .error .failedLookup := by
  have := (bindRun a [] [] 0 [] [] rfl rfl (by simp) (by simp)).2 h
  rw [bind_def, this]

/-- `bind` resolves exactly as the name-based de Bruijn reading does:
whenever it succeeds, the produced expression has the same de Bruijn
skeleton as the raw tree (names resolved to the nearest enclosing
binder), and the result is well-formed. -/
theorem bind_ok_toDB {a : Ast} {e : Expr} (h : bind a = .ok e) :
    Ast.toDB a [] = e.toDB [] ∧ e.WellFormed := by
  cases htd : Ast.toDB a [] with
  | some d =>
    obtain ⟨e', hb, htd', hwf⟩ := bind_of_toDB htd
    rw [hb] at h
    cases h
    exact ⟨htd'.symm, hwf⟩
  | none =>
    rw [bind_none_of_toDB htd] at h
    cases h

theorem bind_error_is_failedLookup {a : Ast} {er : Err} (h : bind a = .error er) :
    er = .failedLookup := by
  cases htd : Ast.toDB a [] with
  | some d =>
    obtain ⟨e', hb, _, _⟩ := bind_of_toDB htd
    rw [hb] at h
    cases h
  | none =>
    rw [bind_none_of_toDB htd] at h
    cases h
    rfl

theorem assocGet_append_single {α β : Type} [DecidableEq α] {l : List (α × β)}
    {a : α} (v : β) (h : assocGet l a = none) :
    assocGet (l ++ [(a, v)]) a = some v := by
  rw [assocGet_append_right _ h]
  simp [assocGet]

/-- Main invariant of `unbind`'s event loop: over a well-scoped subtree
with fresh distinct binders, it pushes a raw subtree with the same de
Bruijn reading (against the chosen names) and restores the replacement
map and scope set. -/
theorem unbindRun (e : Expr) :
    ∀ (stack : List UnbindItem) (repl : List (Parameter × String))
      (scope : List String) (envP : List Parameter) (envS : List String) (d : DB),
      envP = (repl.map Prod.fst).reverse →
      envS = (repl.map Prod.snd).reverse →
      envP.Nodup → envS.Nodup → scope.Perm envS →
      e.ScopedIn envP → (envP ++ e.binders).Nodup → e.toDB envP = some d →
      ∃ a, runSteps unbindStep ⟨stack, repl, scope⟩ e.flatten =
          .ok ⟨.node a :: stack, repl, scope⟩ ∧ Ast.toDB a envS = some d := by
  induction e with
  | ref p =>
    intro stack repl scope envP envS d hP hS hndP hndS hperm hsc hnd htd
    simp only [Expr.toDB] at htd
    cases hidx : idxOf? p envP with
    | none => simp [hidx] at htd
    | some k =>
      rw [hidx] at htd
      have htd' : DB.var k = d := by simpa using htd
      subst htd'
      have hfstnd : (repl.map Prod.fst).Nodup := by
        rw [hP, List.nodup_reverse] at hndP
        exact hndP
      have hfst : repl.reverse.map Prod.fst = envP := by rw [hP, List.map_reverse]
      have hsnd : repl.reverse.map Prod.snd = envS := by rw [hS, List.map_reverse]
      obtain ⟨nm, hget, hgk⟩ := assocGet_fst_idx (L := repl.reverse)
        (by rw [hfst]; exact hidx)
      rw [hsnd] at hgk
      rw [assocGet_reverse hfstnd] at hget
      refine ⟨Ast.name nm, ?_, ?_⟩
      · simp [Expr.flatten, runSteps, unbindStep, hget]
      · simp [Ast.toDB, getElem?_idxOf? hndS hgk]
  | apply f a ihf iha =>
    intro stack repl scope envP envS d hP hS hndP hndS hperm hsc hnd htd
    simp only [Expr.toDB] at htd
    cases hdf : f.toDB envP with
    | none => simp [hdf] at htd
    | some df =>
      cases hda : a.toDB envP with
      | none => simp [hdf, hda] at htd
      | some da =>
        rw [hdf, hda] at htd
        have htd' : DB.app df da = d := by simpa using htd
        subst htd'
        have hndf : (envP ++ f.binders).Nodup := by
          refine List.Nodup.sublist ?_ hnd
          exact (List.sublist_append_left f.binders a.binders).append_left envP
        have hnda : (envP ++ a.binders).Nodup := by
          refine List.Nodup.sublist ?_ hnd
          exact (List.sublist_append_right f.binders a.binders).append_left envP
        obtain ⟨af, hrf, htf⟩ := ihf stack repl scope envP envS df hP hS hndP hndS
          hperm hsc.1 hndf hdf
        obtain ⟨aa, hra, hta⟩ := iha (.node af :: stack) repl scope envP envS da hP hS
          hndP hndS hperm hsc.2 hnda hda
        refine ⟨Ast.apply af aa, ?_, ?_⟩
        · simp only [Expr.flatten, runSteps, unbindStep]
          rw [show f.flatten ++ a.flatten ++ [Piece.closeApply] =
            f.flatten ++ (a.flatten ++ [Piece.closeApply]) by simp]
          rw [runSteps_append_ok _ hrf, runSteps_append_ok _ hra]
          simp [runSteps, unbindStep]
        · simp [Ast.toDB, htf, hta]
  | function p b ihb =>
    intro stack repl scope envP envS d hP hS hndP hndS hperm hsc hnd htd
    simp only [Expr.toDB] at htd
    cases hdb : b.toDB (p :: envP) with
    | none => simp [hdb] at htd
    | some db =>
      rw [hdb] at htd
      have htd' : DB.lam db = d := by simpa using htd
      subst htd'
      have hpenv : p ∉ envP := by
        have hd := List.disjoint_of_nodup_append hnd
        intro hc
        exact hd hc (by simp [Expr.binders])
      have hgp : assocGet repl p = none := by
        rw [assocGet_none_iff]
        intro hmem
        exact hpenv (by rw [hP, List.mem_reverse]; exact hmem)
      have hfresh : name_avoiding scope p.name ∉ scope := name_avoiding_fresh scope p.name
      have hfreshS : name_avoiding scope p.name ∉ envS := fun hc =>
        hfresh (hperm.mem_iff.mpr hc)
      have hmemF : strMem (name_avoiding scope p.name) scope = false := by
        rw [← Bool.not_eq_true, strMem_iff]
        exact hfresh
      have hP' : p :: envP = ((repl ++ [(p, name_avoiding scope p.name)]).map Prod.fst).reverse := by
        simp [hP]
      have hS' : name_avoiding scope p.name :: envS =
          ((repl ++ [(p, name_avoiding scope p.name)]).map Prod.snd).reverse := by
        simp [hS]
      have hndP' : (p :: envP).Nodup := List.nodup_cons.mpr ⟨hpenv, hndP⟩
      have hndS' : (name_avoiding scope p.name :: envS).Nodup :=
        List.nodup_cons.mpr ⟨hfreshS, hndS⟩
      have hperm' : (name_avoiding scope p.name :: scope).Perm
          (name_avoiding scope p.name :: envS) := hperm.cons _
      have hnd' : ((p :: envP) ++ b.binders).Nodup := by
        have hpm : (envP ++ (p :: b.binders)).Perm (p :: (envP ++ b.binders)) :=
          List.perm_middle
        have := hpm.nodup (by simpa [Expr.binders] using hnd)
        simpa using this
      obtain ⟨ab, hrb, htb⟩ := ihb (.name (name_avoiding scope p.name) :: stack)
        (repl ++ [(p, name_avoiding scope p.name)])
        (name_avoiding scope p.name :: scope) (p :: envP)
        (name_avoiding scope p.name :: envS) db hP' hS' hndP' hndS' hperm' hsc hnd' hdb
      refine ⟨Ast.function (name_avoiding scope p.name) ab, ?_, ?_⟩
      · simp only [Expr.flatten, runSteps, unbindStep, hmemF, hgp, Option.isSome_none,
          Bool.false_eq_true, if_false]
        rw [runSteps_append_ok _ hrb]
        have hclose : assocGet (repl ++ [(p, name_avoiding scope p.name)]) p =
          some (name_avoiding scope p.name) := assocGet_append_single _ hgp
        have herase : assocErase (repl ++ [(p, name_avoiding scope p.name)]) p = repl := by
          rw [assocErase_append_of_none _ hgp]
          simp [assocErase]
        have hremove : removeStr (name_avoiding scope p.name :: scope)
            (name_avoiding scope p.name) = scope := by
          simp [removeStr]
        simp [runSteps, unbindStep, hclose, herase, hremove]
      · simp [Ast.toDB, htb]

theorem unbind_of_wf {e : Expr} {d : DB} (hwf : e.WellFormed)
    (htd : e.toDB [] = some d) :
    ∃ a, unbind e = .ok a ∧ Ast.toDB a [] = some d := by
  obtain ⟨a, hr, htd'⟩ := unbindRun e [] [] [] [] [] d rfl rfl (by simp) (by simp)
    (List.Perm.refl _) hwf.1 (by simpa using hwf.2) htd
  refine ⟨a, ?_, htd'⟩
  unfold unbind
  rw [hr]

/-- The round trip behind the binder postcondition: unbinding a
well-formed expression succeeds, rebinding the result succeeds, and the
rebound expression agrees with the original at the root tag and in its
canonical bits. -/
theorem bind_unbind_eqv {e : Expr} (hwf : e.WellFormed) :
    ∃ a e', unbind e = .ok a ∧ bind a = .ok e' ∧
      e'.tag = e.tag ∧ e'.bitstring = e.bitstring := by
  obtain ⟨d, htd⟩ := toDB_isSome hwf.1
  obtain ⟨a, hu, hta⟩ := unbind_of_wf hwf htd
  obtain ⟨e', hb, htd', hwf'⟩ := bind_of_toDB hta
  refine ⟨a, e', hu, hb, ?_, ?_⟩
  · rw [Expr.toDB_tag htd', Expr.toDB_tag htd]
  · rw [bitstring_eq_toDB hwf' htd', bitstring_eq_toDB hwf htd]

theorem ScopedIn_congr {env₁ env₂ : List Parameter}
    (h : ∀ x, x ∈ env₁ ↔ x ∈ env₂) :
    ∀ (e : Expr), e.ScopedIn env₁ ↔ e.ScopedIn env₂ := by
  intro e
  induction e generalizing env₁ env₂ with
  | ref p => exact h p
  | apply f a ihf iha =>
    exact and_congr (ihf h) (iha h)
  | function p b ihb =>
    refine ihb ?_
    intro x
    simp only [List.mem_cons]
    exact or_congr Iff.rfl (h x)

theorem replValBinders_append_ref (repl : List (Parameter × Expr))
    (p q : Parameter) :
    replValBinders (repl ++ [(p, .ref q)]) = replValBinders repl := by
  simp [replValBinders, Expr.binders]

theorem mem_replValBinders {repl : List (Parameter × Expr)} {p : Parameter}
    {rep : Expr} (hget : assocGet repl p = some rep) {q : Parameter}
    (hq : q ∈ rep.binders) : q ∈ replValBinders repl := by
  have hmem := assocGet_snd_mem hget
  simp only [List.mem_map] at hmem
  obtain ⟨pr, hpr, hrep⟩ := hmem
  rw [replValBinders, List.mem_flatMap]
  exact ⟨pr, hpr, by rw [hrep]; exact hq⟩

/-- Main invariant of `FunctionExpr.__call__`'s walk: over a body whose
binders are distinct and disjoint from the replacement keys, either every
reference resolves (through its binder or the map) and the walk computes
exactly the substitution described by the spec, or some reference misses
the map and the walk raises `KeyError`. -/
theorem callRun (body : Expr) :
    ∀ (stack : List Expr) (repl : List (Parameter × Expr)) (next : Nat),
      body.binders.Nodup →
      (∀ q ∈ body.binders, q ∉ repl.map Prod.fst) →
      (body.ScopedIn (repl.map Prod.fst) →
        ∃ e' next', substituteSpec repl next body = some (e', next') ∧
          runSteps callStep ⟨stack, repl, next⟩ body.flatten =
            .ok ⟨e' :: stack, repl, next'⟩ ∧
          next ≤ next' ∧
          (∀ q ∈ e'.binders, (next ≤ q.id ∧ q.id < next') ∨ q ∈ replValBinders repl)) ∧
      (¬ body.ScopedIn (repl.map Prod.fst) →
        runSteps callStep ⟨stack, repl, next⟩ body.flatten = .error .keyError) := by
  induction body with
  | ref p =>
    intro stack repl next _ _
    constructor
    · intro hsc
      have hmem : p ∈ repl.map Prod.fst := hsc
      cases hget : assocGet repl p with
      | none =>
        rw [assocGet_none_iff] at hget
        exact absurd hmem hget
      | some rep =>
        refine ⟨rep, next, ?_, ?_, le_refl next, ?_⟩
        · simp [substituteSpec, hget]
        · simp [Expr.flatten, runSteps, callStep, hget]
        · intro q hq
          exact Or.inr (mem_replValBinders hget hq)
    · intro hsc
      have hnot : p ∉ repl.map Prod.fst := hsc
      have hget : assocGet repl p = none := (assocGet_none_iff _ _).mpr hnot
      simp [Expr.flatten, runSteps, callStep, hget]
  | apply f a ihf iha =>
    intro stack repl next hnd hdisj
    have hndf : f.binders.Nodup :=
      List.Nodup.sublist (List.sublist_append_left _ _) (by simpa [Expr.binders] using hnd)
    have hnda : a.binders.Nodup :=
      List.Nodup.sublist (List.sublist_append_right _ _) (by simpa [Expr.binders] using hnd)
    have hdisjf : ∀ q ∈ f.binders, q ∉ repl.map Prod.fst := fun q hq =>
      hdisj q (by simp [Expr.binders, hq])
    have hdisja : ∀ q ∈ a.binders, q ∉ repl.map Prod.fst := fun q hq =>
      hdisj q (by simp [Expr.binders, hq])
    constructor
    · intro hsc
      obtain ⟨f', n₁, hsf, hrf, hle₁, hbf⟩ :=
        (ihf stack repl next hndf hdisjf).1 hsc.1
      obtain ⟨a', n₂, hsa, hra, hle₂, hba⟩ :=
        (iha (f' :: stack) repl n₁ hnda hdisja).1 hsc.2
      refine ⟨.apply f' a', n₂, ?_, ?_, le_trans hle₁ hle₂, ?_⟩
      · simp [substituteSpec, hsf, hsa]
      · simp only [Expr.flatten, runSteps, callStep]
        rw [show f.flatten ++ a.flatten ++ [Piece.closeApply] =
          f.flatten ++ (a.flatten ++ [Piece.closeApply]) by simp]
        rw [runSteps_append_ok _ hrf, runSteps_append_ok _ hra]
        simp [runSteps, callStep]
      · intro q hq
        simp only [Expr.binders, List.mem_append] at hq
        rcases hq with h | h
        · rcases hbf q h with h' | h'
          · exact Or.inl ⟨h'.1, by omega⟩
          · exact Or.inr h'
        · rcases hba q h with h' | h'
          · exact Or.inl ⟨by omega, h'.2⟩
          · exact Or.inr h'
    · intro hsc
      by_cases hscf : f.ScopedIn (repl.map Prod.fst)
      · have hsca : ¬ a.ScopedIn (repl.map Prod.fst) := fun hc => hsc ⟨hscf, hc⟩
        obtain ⟨f', n₁, _, hrf, _, _⟩ := (ihf stack repl next hndf hdisjf).1 hscf
        have herr := (iha (f' :: stack) repl n₁ hnda hdisja).2 hsca
        simp only [Expr.flatten, runSteps, callStep]
        rw [show f.flatten ++ a.flatten ++ [Piece.closeApply] =
          f.flatten ++ (a.flatten ++ [Piece.closeApply]) by simp]
        rw [runSteps_append_ok _ hrf, runSteps_append_err _ herr]
      · have herr := (ihf stack repl next hndf hdisjf).2 hscf
        simp only [Expr.flatten, runSteps, callStep]
        rw [show f.flatten ++ a.flatten ++ [Piece.closeApply] =
          f.flatten ++ (a.flatten ++ [Piece.closeApply]) by simp]
        rw [runSteps_append_err _ herr]
  | function p b ihb =>
    intro stack repl next hnd hdisj
    have hpb : p ∉ b.binders := by
      have := List.nodup_cons.mp (by simpa [Expr.binders] using hnd)
      exact this.1
    have hndb : b.binders.Nodup := by
      have := List.nodup_cons.mp (by simpa [Expr.binders] using hnd)
      exact this.2
    have hpk : p ∉ repl.map Prod.fst := hdisj p (by simp [Expr.binders])
    have hget : assocGet repl p = none := (assocGet_none_iff _ _).mpr hpk
    have hkeys : (repl ++ [(p, Expr.ref ⟨next, p.name⟩)]).map Prod.fst =
        repl.map Prod.fst ++ [p] := by simp
    have hdisjb : ∀ q ∈ b.binders,
        q ∉ (repl ++ [(p, Expr.ref ⟨next, p.name⟩)]).map Prod.fst := by
      intro q hq
      rw [hkeys]
      simp only [List.mem_append, List.mem_singleton, not_or]
      refine ⟨hdisj q (by simp [Expr.binders, hq]), ?_⟩
      intro hc
      subst hc
      exact hpb hq
    have hsc_iff : b.ScopedIn (p :: repl.map Prod.fst) ↔
        b.ScopedIn ((repl ++ [(p, Expr.ref ⟨next, p.name⟩)]).map Prod.fst) := by
      refine ScopedIn_congr ?_ b
      intro x
      rw [hkeys]
      simp only [List.mem_cons, List.mem_append, List.mem_singleton]
      tauto
    constructor
    · intro hsc
      have hscb : b.ScopedIn ((repl ++ [(p, Expr.ref ⟨next, p.name⟩)]).map Prod.fst) :=
        hsc_iff.mp hsc
      obtain ⟨b', n', hsb, hrb, hle, hbb⟩ :=
        (ihb stack (repl ++ [(p, Expr.ref ⟨next, p.name⟩)]) (next + 1) hndb hdisjb).1 hscb
      have hclose : assocGet (repl ++ [(p, Expr.ref ⟨next, p.name⟩)]) p =
        some (Expr.ref ⟨next, p.name⟩) := assocGet_append_single _ hget
      have herase : assocErase (repl ++ [(p, Expr.ref ⟨next, p.name⟩)]) p = repl := by
        rw [assocErase_append_of_none _ hget]
        simp [assocErase]
      refine ⟨.function ⟨next, p.name⟩ b', n', ?_, ?_, by omega, ?_⟩
      · simp [substituteSpec, hsb]
      · simp only [Expr.flatten, runSteps, callStep, hget, Option.isSome_none,
          Bool.false_eq_true, if_false]
        rw [runSteps_append_ok _ hrb]
        simp [runSteps, callStep, hclose, herase]
      · intro q hq
        simp only [Expr.binders, List.mem_cons] at hq
        rcases hq with h | h
        · subst h
          exact Or.inl ⟨by simp, by simp; omega⟩
        · rcases hbb q h with h' | h'
          · exact Or.inl ⟨by omega, h'.2⟩
          · rw [replValBinders_append_ref] at h'
            exact Or.inr h'
    · intro hsc
      have hscb : ¬ b.ScopedIn ((repl ++ [(p, Expr.ref ⟨next, p.name⟩)]).map Prod.fst) :=
        fun hc => hsc (hsc_iff.mpr hc)
      have herr := (ihb stack (repl ++ [(p, Expr.ref ⟨next, p.name⟩)]) (next + 1)
        hndb hdisjb).2 hscb
      simp only [Expr.flatten, runSteps, callStep, hget, Option.isSome_none,
        Bool.false_eq_true, if_false]
      rw [runSteps_append_err _ herr]

theorem call_function_def (p : Parameter) (body arg : Expr) (fresh : Nat) :
    Expr.call (.function p body) arg fresh =
      match runSteps callStep ⟨[], [(p, arg)], fresh⟩ body.flatten with
      | .ok ⟨[e], _, _⟩ => .ok e
      | .ok _ => .error .assertionError
      | .error er => .error er := rfl

/-- Applying a function whose body is closed under its own parameter
succeeds and computes exactly the spec's substitution; the binders of the
result are either brand-new (ids at or above `fresh`) or come from the
substituted argument. -/
theorem call_of_scoped {p : Parameter} {body : Expr} (arg : Expr) (fresh : Nat)
    (hnd : (p :: body.binders).Nodup) (hsc : body.ScopedIn [p]) :
    ∃ e' n', substituteSpec [(p, arg)] fresh body = some (e', n') ∧
      Expr.call (.function p body) arg fresh = .ok e' ∧ fresh ≤ n' ∧
      (∀ q ∈ e'.binders, (fresh ≤ q.id ∧ q.id < n') ∨ q ∈ arg.binders) := by
  have hndb : body.binders.Nodup := (List.nodup_cons.mp hnd).2
  have hpb : p ∉ body.binders := (List.nodup_cons.mp hnd).1
  have hdisj : ∀ q ∈ body.binders, q ∉ ([(p, arg)].map Prod.fst) := by
    intro q hq
    simp only [List.map_cons, List.map_nil, List.mem_singleton]
    intro hc
    subst hc
    exact hpb hq
  have hsc' : body.ScopedIn ([(p, arg)].map Prod.fst) := hsc
  obtain ⟨e', n', hsb, hr, hle, hb⟩ := (callRun body [] [(p, arg)] fresh hndb hdisj).1 hsc'
  refine ⟨e', n', hsb, ?_, hle, ?_⟩
  · rw [call_function_def, hr]
  · intro q hq
    rcases hb q hq with h | h
    · exact Or.inl h
    · refine Or.inr ?_
      simpa [replValBinders] using h

theorem call_keyError_of_unscoped {p : Parameter} {body arg : Expr} {fresh : Nat}
    (hnd : (p :: body.binders).Nodup) (hnsc : ¬ body.ScopedIn [p]) :
    Expr.call (.function p body) arg fresh = .error .keyError := by
  have hndb : body.binders.Nodup := (List.nodup_cons.mp hnd).2
  have hpb : p ∉ body.binders := (List.nodup_cons.mp hnd).1
  have hdisj : ∀ q ∈ body.binders, q ∉ ([(p, arg)].map Prod.fst) := by
    intro q hq
    simp only [List.map_cons, List.map_nil, List.mem_singleton]
    intro hc
    subst hc
    exact hpb hq
  have herr := (callRun body [] [(p, arg)] fresh hndb hdisj).2 hnsc
  rw [call_function_def, herr]

/-- Applying the bound form of the identity function returns the argument
itself. -/
theorem call_identity (p : Parameter) (arg : Expr) (fresh : Nat) :
    Expr.call (.function p (.ref p)) arg fresh = .ok arg := by
  rw [call_function_def]
  simp [Expr.flatten, runSteps, callStep, assocGet]

/-- A character the tokenizer accepts in some role: identifier character,
single-character token, or whitespace. -/
def validChar (c : Char) : Bool :=
  isIdentChar c || (singleTokenChar c).isSome || isWhite c

theorem tokenizeAux_bad : ∀ (l idAcc : List Char) (ts : List Token) (c : Char),
    tokenizeAux l idAcc = (ts, some c) → validChar c = false := by
  intro l
  induction l with
  | nil =>
    intro idAcc ts c h
    rw [tokenizeAux] at h
    simp at h
  | cons c₀ rest ih =>
    intro idAcc ts c h
    rw [tokenizeAux] at h
    by_cases hid : isIdentChar c₀ = true
    · rw [if_pos hid] at h
      exact ih _ _ _ h
    · rw [if_neg hid] at h
      cases hst : singleTokenChar c₀ with
      | some tt =>
        rw [hst] at h
        dsimp only at h
        cases htk : tokenizeAux rest [] with
        | mk ts₀ bad =>
          rw [htk] at h
          simp only [Prod.mk.injEq] at h
          rw [h.2] at htk
          exact ih _ _ _ htk
      | none =>
        rw [hst] at h
        dsimp only at h
        by_cases hw : isWhite c₀ = true
        · rw [if_pos hw] at h
          cases htk : tokenizeAux rest [] with
          | mk ts₀ bad =>
            rw [htk] at h
            simp only [Prod.mk.injEq] at h
            rw [h.2] at htk
            exact ih _ _ _ htk
        · rw [if_neg hw] at h
          simp only [Prod.mk.injEq, Option.some.injEq] at h
          rw [← h.2, validChar]
          simp [hid, hst, hw]

/-- An input character outside the accepted alphabet is exactly what makes
the tokenizer fail, and the failure names that character. -/
theorem tokenize_bad {s : String} {ts : List Token} {c : Char}
    (h : tokenize s = (ts, some c)) : validChar c = false :=
  tokenizeAux_bad s.data [] ts c h

/-- The shift states of the automaton (the states that read a token). -/
def isShiftState : PState → Bool
  | .sbegin | .sleft | .sdot | .sexpr | .sbeginComplete | .sleftComplete
  | .sslash | .sslashNames => true
  | _ => false

/-- The no-transition table: token types for which a shift state has no
branch, so that `SMParser.parse` raises the bare `ParseError()`. -/
def noTransition : PState → TType → Bool
  | .sbegin, tt => tt = .right || tt = .dot || tt = .tend || tt = .names
  | .sleft, tt => tt = .right || tt = .dot || tt = .tend || tt = .names
  | .sdot, tt => tt = .right || tt = .dot || tt = .tend || tt = .names
  | .sexpr, tt => tt = .right || tt = .dot || tt = .tend || tt = .names ||
      tt = .texpr || tt = .complete
  | .sbeginComplete, tt => !(tt = .tend)
  | .sleftComplete, tt => !(tt = .right)
  | .sslash, tt => !(tt = .id || tt = .names)
  | .sslashNames, tt => !(tt = .id || tt = .dot)
  | _, _ => false

/-- Whenever a shift state reads a token for which it has no transition,
the parser raises the bare `ParseError()` — one fixed error value,
carrying no information about the unexpected token. -/
theorem pstep_noTransition (state : PState) (ss : List PState) (vs : List Value)
    (tks : TStream) (tk : Token) (ts' : TStream)
    (hsh : isShiftState state = true)
    (hnx : tks.next = .ok (tk, ts'))
    (hnt : noTransition state tk.1 = true) :
    pstep ⟨state, ss, vs, tks⟩ = .error .parseError := by
  obtain ⟨tt, tv⟩ := tk
  cases state <;> cases tt <;> simp [noTransition] at hnt <;> simp [pstep, hnx]

/-- C1: for every well-formed Expr `e`, `unbind e` succeeds, `bind` of
the result succeeds, and `bind (unbind e)` is equal to `e` under the
Codec's equality (same root variant tag, identical canonical bit
string) — unbind followed by bind is the identity up to
alpha-equivalence. -/
theorem c1_bind_unbind_roundtrip (e : Expr) (h : e.WellFormed) :
    ∃ a e', unbind e = .ok a ∧ bind a = .ok e' ∧ e'.eqv e :=
  bind_unbind_eqv h

theorem c1_roundtrip_witness :
    (Expr.function ⟨0, "x"⟩ (Expr.ref ⟨0, "x"⟩)).WellFormed ∧
    (∃ a e', unbind (Expr.function ⟨0, "x"⟩ (Expr.ref ⟨0, "x"⟩)) = .ok a ∧
      bind a = .ok e' ∧ e'.eqv (Expr.function ⟨0, "x"⟩ (Expr.ref ⟨0, "x"⟩))) :=
  ⟨by decide, c1_bind_unbind_roundtrip _ (by decide)⟩

/-- C2: for well-formed Exprs, the canonical bit strings coincide exactly
when the expressions are alpha-equivalent (identical up to consistent
renaming of bound parameters), and the `Expr.__eq__` equality — same
variant tag at the root and identical bit sequence — likewise decides
alpha-equivalence. -/
theorem c2_equality_iff_alpha (e₁ e₂ : Expr) (h₁ : e₁.WellFormed)
    (h₂ : e₂.WellFormed) :
    (e₁.bitstring = e₂.bitstring ↔ AlphaEq e₁ e₂) ∧
    (e₁.eqv e₂ ↔ AlphaEq e₁ e₂) := by
  obtain ⟨d₁, htd₁⟩ := toDB_isSome h₁.1
  obtain ⟨d₂, htd₂⟩ := toDB_isSome h₂.1
  have hb₁ := bitstring_eq_toDB h₁ htd₁
  have hb₂ := bitstring_eq_toDB h₂ htd₂
  have hbits : e₁.bitstring = e₂.bitstring ↔ AlphaEq e₁ e₂ := by
    constructor
    · intro hb
      rw [hb₁, hb₂] at hb
      have hs : String.mk d₁.bits = String.mk d₂.bits := by simpa using hb
      have hdd : d₁ = d₂ := DB.bits_inj (congrArg String.data hs)
      subst hdd
      exact toDB_Alpha e₁ e₂ [] d₁ htd₁ htd₂
    · intro hal
      have h := Alpha_toDB (Γ := []) hal
      simp only [List.map_nil] at h
      rw [htd₁, htd₂] at h
      have hdd : d₁ = d₂ := Option.some.inj h
      rw [hb₁, hb₂, hdd]
  refine ⟨hbits, ?_, ?_⟩
  · rintro ⟨_, hb⟩
    exact hbits.mp hb
  · intro hal
    refine ⟨?_, hbits.mpr hal⟩
    have h := Alpha_toDB (Γ := []) hal
    simp only [List.map_nil] at h
    rw [htd₁, htd₂] at h
    have hdd : d₁ = d₂ := Option.some.inj h
    rw [Expr.toDB_tag htd₁, Expr.toDB_tag htd₂, hdd]

theorem c2_equality_witness :
    ((Expr.function ⟨0, "x"⟩ (Expr.ref ⟨0, "x"⟩)).WellFormed ∧
      (Expr.function ⟨1, "y"⟩ (Expr.ref ⟨1, "y"⟩)).WellFormed) ∧
    (((Expr.function ⟨0, "x"⟩ (Expr.ref ⟨0, "x"⟩)).bitstring =
        (Expr.function ⟨1, "y"⟩ (Expr.ref ⟨1, "y"⟩)).bitstring ↔
      AlphaEq (Expr.function ⟨0, "x"⟩ (Expr.ref ⟨0, "x"⟩))
        (Expr.function ⟨1, "y"⟩ (Expr.ref ⟨1, "y"⟩))) ∧
     ((Expr.function ⟨0, "x"⟩ (Expr.ref ⟨0, "x"⟩)).eqv
        (Expr.function ⟨1, "y"⟩ (Expr.ref ⟨1, "y"⟩)) ↔
      AlphaEq (Expr.function ⟨0, "x"⟩ (Expr.ref ⟨0, "x"⟩))
        (Expr.function ⟨1, "y"⟩ (Expr.ref ⟨1, "y"⟩)))) :=
  ⟨⟨by decide, by decide⟩, c2_equality_iff_alpha _ _ (by decide) (by decide)⟩

/-- C3: applying a well-formed FunctionExpr to an argument computes
exactly the substitution described by the spec — the body with every
reference to the function's own parameter replaced by the argument (inner
binders freshly re-allocated); in particular, applying the bound form of
`\x.x` to any well-formed argument returns an Expr canonically equal
(indeed identical) to the argument. -/
theorem c3_call_substitutes (p : Parameter) (body arg : Expr) (fresh : Nat)
    (hf : (Expr.function p body).WellFormed) (ha : arg.WellFormed) :
    (∃ e' n', substituteSpec [(p, arg)] fresh body = some (e', n') ∧
      Expr.call (.function p body) arg fresh = .ok e') ∧
    (Expr.call (.function p (.ref p)) arg fresh = .ok arg ∧ arg.eqv arg) := by
  constructor
  · have hnd : (p :: body.binders).Nodup := by simpa [Expr.binders] using hf.2
    have hsc : body.ScopedIn [p] := hf.1
    obtain ⟨e', n', hs, hc, _, _⟩ := call_of_scoped arg fresh hnd hsc
    exact ⟨e', n', hs, hc⟩
  · exact ⟨call_identity p arg fresh, rfl, rfl⟩

theorem c3_call_witness :
    ((Expr.function ⟨0, "x"⟩ (Expr.ref ⟨0, "x"⟩)).WellFormed ∧
      (Expr.function ⟨1, "y"⟩ (Expr.ref ⟨1, "y"⟩)).WellFormed) ∧
    ((∃ e' n', substituteSpec [(⟨0, "x"⟩, Expr.function ⟨1, "y"⟩ (Expr.ref ⟨1, "y"⟩))] 5
        (Expr.ref ⟨0, "x"⟩) = some (e', n') ∧
      Expr.call (.function ⟨0, "x"⟩ (.ref ⟨0, "x"⟩))
        (Expr.function ⟨1, "y"⟩ (Expr.ref ⟨1, "y"⟩)) 5 = .ok e') ∧
     (Expr.call (.function ⟨0, "x"⟩ (.ref ⟨0, "x"⟩))
        (Expr.function ⟨1, "y"⟩ (Expr.ref ⟨1, "y"⟩)) 5 =
          .ok (Expr.function ⟨1, "y"⟩ (Expr.ref ⟨1, "y"⟩)) ∧
      (Expr.function ⟨1, "y"⟩ (Expr.ref ⟨1, "y"⟩)).eqv
        (Expr.function ⟨1, "y"⟩ (Expr.ref ⟨1, "y"⟩)))) :=
  ⟨⟨by decide, by decide⟩,
    c3_call_substitutes ⟨0, "x"⟩ (Expr.ref ⟨0, "x"⟩)
      (Expr.function ⟨1, "y"⟩ (Expr.ref ⟨1, "y"⟩)) 5 (by decide) (by decide)⟩

/-- C4: after a substitution whose fresh allocations lie above every id in
the body and whose argument shares no binder with the body, every binder
parameter of the result is distinct from every binder of the original
body — the result shares no Parameter identity with the body's own
(non-replaced) binders. -/
theorem c4_identity_isolation (p : Parameter) (body arg : Expr) (fresh : Nat)
    (e' : Expr) (hf : (Expr.function p body).WellFormed)
    (hfresh : ∀ q ∈ body.binders, q.id < fresh)
    (hdisj : ∀ q ∈ arg.binders, q ∉ body.binders)
    (hc : Expr.call (.function p body) arg fresh = .ok e') :
    ∀ q ∈ e'.binders, q ∉ body.binders := by
  have hnd : (p :: body.binders).Nodup := by simpa [Expr.binders] using hf.2
  have hsc : body.ScopedIn [p] := hf.1
  obtain ⟨e'', n', _, hc', _, hb⟩ := call_of_scoped arg fresh hnd hsc
  rw [hc'] at hc
  cases hc
  intro q hq
  rcases hb q hq with h | h
  · intro hmem
    have := hfresh q hmem
    omega
  · exact hdisj q h

theorem c4_isolation_witness :
    ((Expr.function ⟨0, "x"⟩ (Expr.function ⟨1, "y"⟩ (Expr.ref ⟨0, "x"⟩))).WellFormed ∧
      (∀ q ∈ (Expr.function ⟨1, "y"⟩ (Expr.ref ⟨0, "x"⟩)).binders, q.id < 10) ∧
      (∀ q ∈ (Expr.function ⟨2, "z"⟩ (Expr.ref ⟨2, "z"⟩)).binders,
        q ∉ (Expr.function ⟨1, "y"⟩ (Expr.ref ⟨0, "x"⟩)).binders) ∧
      Expr.call (.function ⟨0, "x"⟩ (Expr.function ⟨1, "y"⟩ (Expr.ref ⟨0, "x"⟩)))
        (Expr.function ⟨2, "z"⟩ (Expr.ref ⟨2, "z"⟩)) 10 =
        .ok (Expr.function ⟨10, "y"⟩ (Expr.function ⟨2, "z"⟩ (Expr.ref ⟨2, "z"⟩)))) ∧
    (∀ q ∈ (Expr.function ⟨10, "y"⟩ (Expr.function ⟨2, "z"⟩ (Expr.ref ⟨2, "z"⟩))).binders,
      q ∉ (Expr.function ⟨1, "y"⟩ (Expr.ref ⟨0, "x"⟩)).binders) :=
  ⟨⟨by decide, by decide, by decide, by decide⟩,
    c4_identity_isolation ⟨0, "x"⟩ (Expr.function ⟨1, "y"⟩ (Expr.ref ⟨0, "x"⟩))
      (Expr.function ⟨2, "z"⟩ (Expr.ref ⟨2, "z"⟩)) 10
      (Expr.function ⟨10, "y"⟩ (Expr.function ⟨2, "z"⟩ (Expr.ref ⟨2, "z"⟩)))
      (by decide) (by decide) (by decide) (by decide)⟩

/-- C5: `bind` resolves every name to the nearest enclosing binder of
that name (the de Bruijn reading of the raw tree, in which inner binders
shadow outer ones); in particular `bind (parse "\x.\x.x")` and
`bind (parse "\x.\y.y")` are equal under the canonical equality and both
encode to `"000010"`. -/
theorem c5_shadowing :
    (∀ (a : Ast) (e : Expr), bind a = .ok e → Ast.toDB a [] = Expr.toDB e []) ∧
    (∃ e₁ e₂, bindParse "\\x.\\x.x" = some (.ok e₁) ∧
      bindParse "\\x.\\y.y" = some (.ok e₂) ∧ e₁.eqv e₂ ∧
      e₁.bitstring = .ok "000010" ∧ e₂.bitstring = .ok "000010") := by
  constructor
  · intro a e h
    exact (bind_ok_toDB h).1
  · exact ⟨Expr.function ⟨0, "x"⟩ (Expr.function ⟨1, "x"⟩ (Expr.ref ⟨1, "x"⟩)),
      Expr.function ⟨0, "x"⟩ (Expr.function ⟨1, "y"⟩ (Expr.ref ⟨1, "y"⟩)),
      by decide, by decide, by decide, by decide, by decide⟩

theorem c5_shadowing_witness :
    (bind (Ast.function "x" (Ast.name "x")) =
      .ok (Expr.function ⟨0, "x"⟩ (Expr.ref ⟨0, "x"⟩))) ∧
    Ast.toDB (Ast.function "x" (Ast.name "x")) [] =
      Expr.toDB (Expr.function ⟨0, "x"⟩ (Expr.ref ⟨0, "x"⟩)) [] :=
  ⟨by decide, c5_shadowing.1 (Ast.function "x" (Ast.name "x"))
    (Expr.function ⟨0, "x"⟩ (Expr.ref ⟨0, "x"⟩)) (by decide)⟩

/-- C6: the canonical codec produces the specified literal encodings:
`bind (parse "\x.x")` encodes to `"0010"`, `bind (parse "\x.\y.x")` to
`"0000110"`, and `bind (parse "\x.\y.x y")` to `"00000111010"`. -/
theorem c6_literal_encodings :
    canonicalBits "\\x.x" = some (.ok "0010") ∧
    canonicalBits "\\x.\\y.x" = some (.ok "0000110") ∧
    canonicalBits "\\x.\\y.x y" = some (.ok "00000111010") :=
  ⟨by decide, by decide, by decide⟩

/-- C7: a multi-name lambda desugars into nested single-binder functions
with the rightmost name bound innermost: the RLAMBDA reduction wraps
`\x y z. body` as `Function(x, Function(y, Function(z, body)))`, and
`parse "\x y z.w"` produces exactly that nesting. -/
theorem c7_multiname_lambda :
    (∀ (x y z : String) (body : Ast), wrapLambda [x, y, z] body =
      Ast.function x (Ast.function y (Ast.function z body))) ∧
    parse "\\x y z.w" = some (.ok (Ast.function "x" (Ast.function "y"
      (Ast.function "z" (Ast.name "w"))))) :=
  ⟨fun _ _ _ _ => rfl, by decide⟩

/-- C8 counterexample: the error raised for the unbound name `x` is the
very same value as the one raised for the unbound name `y` — the constant
`ValueError("Failed lookup")` — so the error raised by `bind` does not
identify the offending name, contrary to the claim. -/
theorem c8_counterexample :
    bindParse "x" = bindParse "y" ∧
    bindParse "x" = some (.error .failedLookup) :=
  ⟨by decide, by decide⟩

/-- C8 (amended): whenever `bind` encounters a name with no matching
binder in scope it raises the one generic lookup error
(`ValueError("Failed lookup")`), which does not carry the name; in
particular `bind (parse "x")` raises it, and this error kind is distinct
from the lexical and syntax error kinds. -/
theorem c8_unbound_lookup_error :
    (∀ (a : Ast) (er : Err), bind a = .error er → er = .failedLookup) ∧
    bindParse "x" = some (.error .failedLookup) ∧
    Err.failedLookup ≠ Err.parseError ∧
    (∀ c, Err.failedLookup ≠ Err.invalidCharacter c) :=
  ⟨fun _ _ h => bind_error_is_failedLookup h, by decide, by decide,
    fun _ h => Err.noConfusion h⟩

theorem c8_unbound_witness :
    bind (Ast.name "x") = .error .failedLookup ∧
    Err.failedLookup = Err.failedLookup :=
  ⟨by decide, c8_unbound_lookup_error.1 (Ast.name "x") Err.failedLookup (by decide)⟩

/-- C9 counterexample: `parse ")"` fails on an unexpected RIGHT token and
`parse ""` fails on an unexpected END token, yet both raise the identical
bare `ParseError()` value — the syntax error does not identify the
unexpected token, contrary to the claim. -/
theorem c9_counterexample :
    parse ")" = parse "" ∧
    parse ")" = some (.error .parseError) :=
  ⟨by decide, by decide⟩

/-- C9 (amended): whenever a parser shift state has no transition for the
token it reads — including on empty input and on input ending at an
unclosed parenthesis — `parse` raises the bare `ParseError()` (one fixed
value that does not identify the unexpected token); an input character
outside the accepted alphabet is exactly what makes the tokenizer fail,
and that failure is reported with the offending character: `parse ""` and
`parse "(x"` raise the bare ParseError, and `parse "$"` raises the
lexical error naming `'$'`. -/
theorem c9_error_taxonomy :
    (∀ (state : PState) (ss : List PState) (vs : List Value) (tks : TStream)
      (tk : Token) (ts' : TStream), isShiftState state = true →
      tks.next = .ok (tk, ts') → noTransition state tk.1 = true →
      pstep ⟨state, ss, vs, tks⟩ = .error .parseError) ∧
    (∀ (s : String) (ts : List Token) (c : Char), tokenize s = (ts, some c) →
      validChar c = false) ∧
    parse "" = some (.error .parseError) ∧
    parse "(x" = some (.error .parseError) ∧
    parse "$" = some (.error (.invalidCharacter '$')) :=
  ⟨pstep_noTransition, fun _ _ _ h => tokenize_bad h, by decide, by decide, by decide⟩

theorem c9_taxonomy_witness :
    (isShiftState PState.sbegin = true ∧
      TStream.next ⟨[(TType.right, Value.vnone)], none⟩ =
        .ok ((TType.right, Value.vnone), ⟨[], none⟩) ∧
      noTransition PState.sbegin TType.right = true) ∧
    pstep ⟨PState.sbegin, [], [], ⟨[(TType.right, Value.vnone)], none⟩⟩ =
      .error .parseError :=
  ⟨⟨rfl, rfl, by decide⟩,
    c9_error_taxonomy.1 PState.sbegin [] [] ⟨[(TType.right, Value.vnone)], none⟩
      (TType.right, Value.vnone) ⟨[], none⟩ rfl rfl (by decide)⟩

/-- C10: FunctionExpr application is only defined for bodies whose
references all point at the function's own parameter or at a binder
inside the body: whenever the body references an outer binder the walk
fails with `KeyError` on the replacements mapping, and under the
closed-body precondition that error branch is unreachable (the
application succeeds). -/
theorem c10_substitution_precondition :
    (∀ (p : Parameter) (body arg : Expr) (fresh : Nat),
      (p :: body.binders).Nodup → ¬ body.ScopedIn [p] →
      Expr.call (.function p body) arg fresh = .error .keyError) ∧
    (∀ (p : Parameter) (body arg : Expr) (fresh : Nat),
      (p :: body.binders).Nodup → body.ScopedIn [p] →
      ∃ e', Expr.call (.function p body) arg fresh = .ok e') := by
  constructor
  · intro p body arg fresh hnd hnsc
    exact call_keyError_of_unscoped hnd hnsc
  · intro p body arg fresh hnd hsc
    obtain ⟨e', _, _, hc, _, _⟩ := call_of_scoped arg fresh hnd hsc
    exact ⟨e', hc⟩

theorem c10_precondition_witness :
    (((⟨0, "x"⟩ : Parameter) :: (Expr.ref ⟨1, "y"⟩).binders).Nodup ∧
      ¬ (Expr.ref ⟨1, "y"⟩).ScopedIn [⟨0, "x"⟩]) ∧
    Expr.call (.function ⟨0, "x"⟩ (.ref ⟨1, "y"⟩)) (Expr.ref ⟨2, "z"⟩) 7 =
      .error .keyError :=
  ⟨⟨by decide, by decide⟩,
    c10_substitution_precondition.1 ⟨0, "x"⟩ (Expr.ref ⟨1, "y"⟩)
      (Expr.ref ⟨2, "z"⟩) 7 (by decide) (by decide)⟩
